import Mathlib

/-!
# Verification of `vCardCleaner/Cleaner.py`

A shallow embedding of the vCard-cleaning program into Lean 4.  Records are
Python dictionaries mapping a property name to either a single property value
(`{'value': ..., 'params': [...]}`) or a list of such values; we model them as
insertion-ordered association lists, which is exactly the observable behaviour
of Python 3.7+ dicts.  Python string helpers (`rstrip`, `strip`, `split`,
`upper`, ...) are modelled character-by-character on `String.data`; the
whitespace set is the ASCII whitespace set Python uses for ASCII input, and
`upper` is the per-character ASCII upcasing, which agrees with Python's
`str.upper` on every comparison against the literal `'NULL'` performed here.
-/

namespace VCardCleaner

/-! ## Python string primitives -/

/-- ASCII whitespace, the characters stripped by Python's `str.strip`
and `str.rstrip` on ASCII text. -/
def isPySpace (c : Char) : Bool :=
  c = ' ' || c = '\t' || c = '\n' || c = '\r' || c = '\x0b' || c = '\x0c'

/-- `list.rstrip()` on a character list. -/
def pyRstripL (l : List Char) : List Char :=
  (l.reverse.dropWhile isPySpace).reverse

/-- Python `s.rstrip()`. -/
def pyRstrip (s : String) : String :=
  ⟨pyRstripL s.data⟩

/-- Python `s.strip()`. -/
def pyStrip (s : String) : String :=
  ⟨pyRstripL (s.data.dropWhile isPySpace)⟩

/-- Python `s.startswith(' ') or s.startswith('\t')`: the line-folding
continuation test of `preprocess_vcard_lines`. -/
def startsFold (s : String) : Bool :=
  match s.data with
  | [] => false
  | c :: _ => c = ' ' || c = '\t'

/-- Python `s.split(sep, 1)` on character lists, returning `none` when the
separator does not occur (the program only splits after an `in` test). -/
def splitFirstL (sep : Char) : List Char → Option (List Char × List Char)
  | [] => none
  | c :: cs =>
    if c = sep then some ([], cs)
    else (splitFirstL sep cs).map (fun p => (c :: p.1, p.2))

/-- Python `s.split(':', 1)` as used by `parse_vcard` (guarded by `':' in s`). -/
def splitFirstColon (s : String) : Option (String × String) :=
  (splitFirstL ':' s.data).map (fun p => (⟨p.1⟩, ⟨p.2⟩))

/-- Python `s.split(sep)` for a one-character separator: always returns at
least one (possibly empty) piece. -/
def splitAllL (sep : Char) : List Char → List (List Char)
  | [] => [[]]
  | c :: cs =>
    let r := splitAllL sep cs
    if c = sep then [] :: r
    else
      match r with
      | [] => [[c]]
      | h :: t => (c :: h) :: t

/-- Python `s.split(sep)` on strings. -/
def pySplit (sep : Char) (s : String) : List String :=
  (splitAllL sep s.data).map (fun l => ⟨l⟩)

/-- Python `s.upper()` (ASCII case mapping, sufficient for the `'NULL'`
comparisons made by the program). -/
def pyUpper (s : String) : String :=
  ⟨s.data.map Char.toUpper⟩

/-! ## Data model

A `PropertyValue` is the Python dict `{'value': v, 'params': ps}`; a property
maps to either one `PropertyValue` or a list of them; a `Record` (a vCard) is
an insertion-ordered dictionary from property names to entries. -/

structure PropertyValue where
  value : String
  params : List String
deriving DecidableEq, Repr

inductive PropEntry where
  | one : PropertyValue → PropEntry
  | many : List PropertyValue → PropEntry
deriving DecidableEq, Repr

/-- The instances stored under one property, as a list. -/
def PropEntry.instances : PropEntry → List PropertyValue
  | .one pv => [pv]
  | .many pvs => pvs

abbrev Record := List (String × PropEntry)

/-- Keys of an association list, in order. -/
def keysOf {α : Type} (m : List (String × α)) : List String :=
  m.map Prod.fst

/-- Python `d[k]` / `k in d`: first binding of `k` (keys are unique in every
dict the program builds, so "first" is "the" binding). -/
def alookup {α : Type} (k : String) : List (String × α) → Option α
  | [] => none
  | (k', v) :: rest => if k' = k then some v else alookup k rest

/-- Python `d[k] = v`: overwrite in place when the key exists (its position in
the iteration order is kept), append a new binding otherwise. -/
def dictSet {α : Type} (m : List (String × α)) (k : String) (v : α) :
    List (String × α) :=
  match m with
  | [] => [(k, v)]
  | (k', w) :: rest =>
    if k' = k then (k', v) :: rest else (k', w) :: dictSet rest k v

/-! ## `preprocess_vcard_lines` (unfolding) -/

/-- The loop of `preprocess_vcard_lines`, with the `current_line` accumulator
made explicit.  Each raw line is `rstrip`ped; a stripped line beginning with a
space or tab has its first character dropped and is appended to the line under
construction; any other line flushes the (nonempty) line under construction
and starts a new one; the last line under construction is flushed at the end. -/
def preprocessAux (cur : String) : List String → List String
  | [] => if cur ≠ "" then [cur] else []
  | l :: ls =>
    let l' := pyRstrip l
    if startsFold l' then preprocessAux (cur ++ l'.drop 1) ls
    else if cur ≠ "" then cur :: preprocessAux l' ls
    else preprocessAux l' ls

/-- `preprocess_vcard_lines` (Cleaner.py lines 6–25). -/
def preprocess_vcard_lines (lines : List String) : List String :=
  preprocessAux "" lines

/-! ## `parse_vcard` -/

/-- Adding one parsed property to a record under construction: the dict-update
logic of `parse_vcard` lines 40–46 (new key appended; an existing single value
escalates to a two-element list; an existing list gets an append). -/
def insertProp : Record → String → PropertyValue → Record
  | [], k, pv => [(k, .one pv)]
  | (k', e) :: rest, k, pv =>
    if k' = k then
      (k', match e with
           | .one p => .many [p, pv]
           | .many ps => .many (ps ++ [pv])) :: rest
    else (k', e) :: insertProp rest k pv

/-- Parsing one preprocessed logical line: `none` for a line without a colon
(skipped), otherwise the property name, parameter tokens and trimmed value. -/
def parseLine (line : String) : Option (String × PropertyValue) :=
  match splitFirstColon line with
  | none => none
  | some (key, value) =>
    let keyParts := pySplit ';' key
    let name := match keyParts with
                | [] => ""
                | n :: _ => n
    let params := keyParts.tail
    some (name, ⟨pyStrip value, params⟩)

/-- One iteration of the parse loop: skip a colon-less line, insert the
parsed property otherwise. -/
def parseFoldStep (vc : Record) (line : String) : Record :=
  match parseLine line with
  | none => vc
  | some (name, pv) => insertProp vc name pv

/-- `parse_vcard` (Cleaner.py lines 28–47). -/
def parse_vcard (lines : List String) : Record :=
  (preprocess_vcard_lines lines).foldl parseFoldStep []

/-! ## Serialization -/

/-- Python `sep.join(ps)`. -/
def pyJoin (sep : String) : List String → String
  | [] => ""
  | [x] => x
  | x :: y :: xs => x ++ sep ++ pyJoin sep (y :: xs)

/-- `format_vcard_line` (Cleaner.py lines 266–270). -/
def format_vcard_line (key : String) (v : PropertyValue) : String :=
  let params := if v.params ≠ [] then pyJoin ";" v.params else ""
  let pre := if params ≠ "" then key ++ ";" ++ params else key
  pre ++ ":" ++ v.value

/-- The output lines contributed by one stored property: one line per
instance. -/
def entryLines (kv : String × PropEntry) : List String :=
  match kv.2 with
  | .one v => [format_vcard_line kv.1 v]
  | .many vs => vs.map (format_vcard_line kv.1)

/-- The lines emitted by `vcard_to_string` (Cleaner.py lines 66–78): begin
marker, one line per property instance in stored order (skipping any `BEGIN` /
`END` keys), end marker. -/
def vcard_to_string_lines (vcard : Record) : List String :=
  "BEGIN:VCARD" ::
    ((vcard.filter (fun kv => kv.1 ≠ "BEGIN" && kv.1 ≠ "END")).flatMap
      entryLines ++ ["END:VCARD"])

/-- `vcard_to_string`: the emitted lines joined with `'\n'`. -/
def vcard_to_string (vcard : Record) : String :=
  String.intercalate "\n" (vcard_to_string_lines vcard)

/-! ## `remove_null_values` -/

/-- Is a value the case-insensitive literal `NULL`
(Python `v['value'].upper() == 'NULL'`)? -/
def isNullValue (pv : PropertyValue) : Bool :=
  pyUpper pv.value = "NULL"

/-- `remove_null_values` on one vCard (the body of the loop at Cleaner.py
lines 86–104): list-valued properties keep their non-`NULL` instances (the
property is deleted when none remain, and stays a list even when one remains);
a single-instance property is deleted when its value is `NULL`.  Deleting a
key and updating a key in place are exactly Python's `del`/assignment on an
insertion-ordered dict, hence a `filterMap` over the ordered bindings. -/
def remove_null_values_rec : Record → Record
  | [] => []
  | (k, .one v) :: rest =>
    if isNullValue v then remove_null_values_rec rest
    else (k, .one v) :: remove_null_values_rec rest
  | (k, .many vs) :: rest =>
    if vs.filter (fun v => ¬ isNullValue v) = [] then
      remove_null_values_rec rest
    else (k, .many (vs.filter (fun v => ¬ isNullValue v))) ::
      remove_null_values_rec rest

/-- `remove_null_values` (Cleaner.py lines 81–104) over the whole list. -/
def remove_null_values (vcards : List Record) : List Record :=
  vcards.map remove_null_values_rec

/-! ## `extract_name` and the grouping key -/

/-- The tokenisation at Cleaner.py lines 112–114: split the full name on
single spaces; first name is `parts[0] if parts else ''`; last name is
`parts[-1]` only when there is more than one token. -/
def nameParts (name : String) : String × String :=
  let parts := pySplit ' ' name
  let first_name := match parts with
                    | [] => ""
                    | p :: _ => p
  let last_name := if 1 < parts.length then parts.getLastD "" else ""
  (first_name, last_name)

/-- `extract_name` (Cleaner.py lines 107–115).  `vcard.get('FN', ...)['value']`
subscripts the stored entry with the string `'value'`; when `FN` holds a
*list* of instances this raises `TypeError` in Python, modelled as `none`. -/
def extract_name (vcard : Record) : Option (String × String) :=
  match alookup "FN" vcard with
  | some (.many _) => none
  | some (.one pv) => some (nameParts pv.value)
  | none => some (nameParts "")

/-- The grouping key `f"{last_name}, {first_name}"` (Cleaner.py line 126). -/
def nameKey (vcard : Record) : Option String :=
  (extract_name vcard).map (fun fl => fl.2 ++ ", " ++ fl.1)

/-! ## `organize_duplicates` -/

/-- Appending to the list stored under a key of the duplicates dict
(Python `duplicates_[name_key].append(vcard)`; the key is present). -/
def dictListAppend {α : Type} (m : List (String × List α)) (k : String)
    (v : α) : List (String × List α) :=
  match m with
  | [] => [(k, [v])]
  | (k', l) :: rest =>
    if k' = k then (k', l ++ [v]) :: rest else (k', l) :: dictListAppend rest k v

/-- The scan state of `organize_duplicates`: the duplicates dict, the
provisional unique list and the `seen_names` dict. -/
structure ScanState where
  duplicates : List (String × List Record)
  unique : List Record
  seen : List (String × Record)
deriving DecidableEq, Repr

/-- One iteration of the scan loop (Cleaner.py lines 124–136); `none` models
the `TypeError` raised by `extract_name` on a multi-instance `FN`. -/
def scanStep (st : ScanState) (vcard : Record) : Option ScanState :=
  match nameKey vcard with
  | none => none
  | some key =>
    match alookup key st.seen with
    | some seed =>
      let dups :=
        match alookup key st.duplicates with
        | some _ => st.duplicates
        | none => st.duplicates ++ [(key, [seed])]
      some { st with duplicates := dictListAppend dups key vcard }
    | none =>
      some { st with unique := st.unique ++ [vcard],
                     seen := st.seen ++ [(key, vcard)] }

/-- The whole scan loop of `organize_duplicates`. -/
def scanAll (vcards : List Record) : Option ScanState :=
  vcards.foldl (fun ost vc => ost.bind (fun st => scanStep st vc))
    (some ⟨[], [], []⟩)

/-- Python `list.remove(x)` preceded by an `x in list` test: drop the first
element satisfying the predicate, leave the list unchanged when none does. -/
def removeFirst {α : Type} (p : α → Bool) : List α → List α
  | [] => []
  | x :: xs => if p x then xs else x :: removeFirst p xs

/-- Python `==` on two vCard dicts: same key set, equal stored entry per key
(order-insensitive, as dict equality is). -/
def recEqB (a b : Record) : Bool :=
  (keysOf a).all (fun k => alookup k a = alookup k b) &&
    (keysOf b).all (fun k => alookup k b = alookup k a)

/-- The removal loop of `organize_duplicates` (Cleaner.py lines 139–142):
for every duplicate group member, if some unique-list entry compares `==` to
it, remove the first such entry. -/
def removeDupsFromUnique (duplicates : List (String × List Record))
    (unique : List Record) : List Record :=
  duplicates.foldl
    (fun uniq kl =>
      kl.2.foldl
        (fun uniq d =>
          if uniq.any (fun x => recEqB x d) then
            removeFirst (fun x => recEqB x d) uniq
          else uniq)
        uniq)
    unique

/-- `organize_duplicates` (Cleaner.py lines 118–144). -/
def organize_duplicates (vcards : List Record) :
    Option (List Record × List (String × List Record)) :=
  (scanAll vcards).map
    (fun st => (removeDupsFromUnique st.duplicates st.unique, st.duplicates))

/-! ## `remove_identical_entries`, `move_unique_entries_back` -/

/-- The per-group loop of `remove_identical_entries` (Cleaner.py lines
156–162): keep the first record for each distinct serialized string.  The
Python `seen` set is modelled as the list of strings added so far (only
membership is consulted). -/
def dedupBySerialAux (uniq : List Record) (seen : List String) :
    List Record → List Record
  | [] => uniq
  | vc :: vcs =>
    let s := vcard_to_string vc
    if seen.contains s then dedupBySerialAux uniq seen vcs
    else dedupBySerialAux (uniq ++ [vc]) (seen ++ [s]) vcs

/-- `remove_identical_entries` (Cleaner.py lines 151–163). -/
def remove_identical_entries (duplicates : List (String × List Record)) :
    List (String × List Record) :=
  duplicates.map (fun kl => (kl.1, dedupBySerialAux [] [] kl.2))

/-- `move_unique_entries_back` (Cleaner.py lines 166–173): each group that
holds exactly one record has that record appended to the main list and its
key deleted from the duplicates dict. -/
def move_unique_entries_back (duplicates : List (String × List Record))
    (main : List Record) : List (String × List Record) × List Record :=
  duplicates.foldl
    (fun dm kl =>
      if kl.2.length = 1 then (dm.1, dm.2 ++ [kl.2.headD []])
      else (dm.1 ++ [kl], dm.2))
    ([], main)

/-- `clean_duplicates` (Cleaner.py lines 176–182). -/
def clean_duplicates (duplicates : List (String × List Record))
    (main : List Record) : List (String × List Record) × List Record :=
  move_unique_entries_back (remove_identical_entries duplicates) main

/-! ## `clean_and_aggregate_vcards` -/

/-- The regular expression `^item\d+\.`: the literal `item`, one or more
digits, then a dot, anchored at the start. -/
def matchesItemPat (s : String) : Bool :=
  match s.data with
  | 'i' :: 't' :: 'e' :: 'm' :: rest =>
    let ds := rest.takeWhile Char.isDigit
    ds ≠ [] &&
      (match rest.drop ds.length with
       | '.' :: _ => true
       | _ => false)
  | _ => false

/-- Registering one property instance in the `aggregated_properties` dict
(Cleaner.py lines 210–214): keyed by the serialization of the one-pair vCard
`{prop: v}`, storing that one-pair vCard, overwriting any previous binding. -/
def aggregateInstance (agg : List (String × Record)) (prop : String)
    (v : PropertyValue) : List (String × Record) :=
  dictSet agg (vcard_to_string [(prop, .one v)]) [(prop, .one v)]

/-- The aggregation map built for one duplicate group (Cleaner.py lines
199–214): group members visited in order, their properties in stored order,
`item#.`-prefixed names skipped, every instance registered individually. -/
def aggregateGroup (vcards : List Record) : List (String × Record) :=
  vcards.foldl
    (fun agg vc =>
      vc.foldl
        (fun agg kv =>
          if matchesItemPat kv.1 then agg
          else
            match kv.2 with
            | .many vs => vs.foldl (fun agg v => aggregateInstance agg kv.1 v) agg
            | .one v => aggregateInstance agg kv.1 v)
        agg)
    []

/-- Building the merged vCard (Cleaner.py lines 217–219): `new_vcard.update`
of each retained one-pair dict in registration order.  `dict.update`
*overwrites* the binding of an existing property name. -/
def buildAggregatedRecord (agg : List (String × Record)) : Record :=
  agg.foldl
    (fun nv kr => kr.2.foldl (fun nv kv => dictSet nv kv.1 kv.2) nv)
    []

/-- `clean_and_aggregate_vcards` (Cleaner.py lines 192–222): each duplicate
group is replaced by the one-element list holding its merged vCard. -/
def clean_and_aggregate_vcards (duplicates : List (String × List Record)) :
    List (String × List Record) :=
  duplicates.map (fun kl => (kl.1, [buildAggregatedRecord (aggregateGroup kl.2)]))

/-! ## `remove_duplicate_phone_numbers` -/

/-- `remove_duplicate_phone_numbers` on one vCard (the loop body at
Cleaner.py lines 231–245): the `unique_phones` dict is keyed by the raw value
string, later instances with an already-seen value overwrite the stored
instance; a single stored instance is treated as a one-element iteration.
`TEL` is reassigned the list of retained values, always a list. -/
def remove_duplicate_phones_rec (vcard : Record) : Record :=
  match alookup "TEL" vcard with
  | none => vcard
  | some e =>
    let uniq := e.instances.foldl
      (fun m pv => dictSet m pv.value pv) []
    dictSet vcard "TEL" (.many (uniq.map Prod.snd))

/-- `remove_duplicate_phone_numbers` (Cleaner.py lines 225–245). -/
def remove_duplicate_phone_numbers (vcards : List Record) : List Record :=
  vcards.map remove_duplicate_phones_rec

/-- `add_duplicates_back_to_vcards` (Cleaner.py lines 253–263). -/
def add_duplicates_back_to_vcards (vcards : List Record)
    (duplicates : List (String × List Record)) : List Record :=
  duplicates.foldl (fun vs kl => vs ++ [kl.2.headD []]) vcards

/-! ## Reference definitions taken from the specification's wording

Each definition below is written from the specification text (not from the
source), to be compared with the embedded code. -/

/-- From the claim wording for the unfolding step: the same folding loop but
with only trailing *line terminators* stripped from each raw line. -/
def pyRstripNewlinesOnly (s : String) : String :=
  ⟨(s.data.reverse.dropWhile (fun c => c = '\n' || c = '\r')).reverse⟩

/-- The unfolding pass as the claim for it reads: strip only trailing line
terminators, then treat exactly the lines beginning with a space or tab as
continuations, dropping the single fold character and appending the remainder
verbatim. -/
def preprocessPerClaimAux (cur : String) : List String → List String
  | [] => if cur ≠ "" then [cur] else []
  | l :: ls =>
    let l' := pyRstripNewlinesOnly l
    if startsFold l' then preprocessPerClaimAux (cur ++ l'.drop 1) ls
    else if cur ≠ "" then cur :: preprocessPerClaimAux l' ls
    else preprocessPerClaimAux l' ls

/-- The claim's unfolding pass over a list of raw lines. -/
def preprocessPerClaim (lines : List String) : List String :=
  preprocessPerClaimAux "" lines

/-- The concatenation of a run of continuation lines, first character of each
dropped. -/
def dropFirstConcat (ls : List String) : String :=
  ls.foldr (fun c acc => c.drop 1 ++ acc) ""

/-- Spec-style description of unfolding (amended wording): after stripping
all trailing whitespace from every line, a maximal run of fold-continuations
is appended (first characters dropped) to the line opening the group, and
empty logical lines are dropped. -/
def unfoldSpecGo : List String → List String
  | [] => []
  | l :: ls =>
    let conts := ls.takeWhile startsFold
    let rest := ls.dropWhile startsFold
    let logical := (if startsFold l then l.drop 1 else l) ++
      dropFirstConcat conts
    (if logical ≠ "" then [logical] else []) ++ unfoldSpecGo rest
termination_by l => l.length
decreasing_by
  simp only [List.length_cons]
  exact Nat.lt_succ_of_le (List.dropWhile_sublist _).length_le

/-- The spec-style unfolding of a list of raw lines. -/
def unfoldSpec (lines : List String) : List String :=
  unfoldSpecGo (lines.map pyRstrip)

/-- The folding loop on already-stripped lines, with the pending logical line
explicit: the bridge between the code's accumulator loop and the spec-style
grouping formulation. -/
def unfoldSpecGoCur (cur : String) : List String → List String
  | [] => if cur ≠ "" then [cur] else []
  | l :: ls =>
    if startsFold l then unfoldSpecGoCur (cur ++ l.drop 1) ls
    else if cur ≠ "" then cur :: unfoldSpecGoCur l ls
    else unfoldSpecGoCur l ls

/-- Spec wording for the exact-duplicate collapse: retain only the first
record per distinct serialized string, in original order. -/
def specDedupBySerial : List Record → List Record
  | [] => []
  | v :: vs =>
    v :: specDedupBySerial
      (vs.filter (fun w => vcard_to_string w ≠ vcard_to_string v))
termination_by l => l.length
decreasing_by
  simp only [List.length_cons]
  exact Nat.lt_succ_of_le (List.length_filter_le _ _)

/-- The distinct strings of a list, in first-occurrence order. -/
def dedupKeepFirstStr : List String → List String
  | [] => []
  | v :: vs => v :: dedupKeepFirstStr (vs.filter (fun w => w ≠ v))
termination_by l => l.length
decreasing_by
  simp only [List.length_cons]
  exact Nat.lt_succ_of_le (List.length_filter_le _ _)

/-- The last stored instance carrying a given raw phone value. -/
def lastWithValue (pvs : List PropertyValue) (v : String) : PropertyValue :=
  (pvs.filter (fun pv => pv.value = v)).getLastD ⟨"", []⟩

/-- Spec wording for the phone deduplicator: one instance per distinct raw
value, in first-distinct-value order, each being the last occurrence of that
value (last-seen parameters win). -/
def specPhoneDedup (pvs : List PropertyValue) : List PropertyValue :=
  (dedupKeepFirstStr (pvs.map PropertyValue.value)).map (lastWithValue pvs)

/-- Spec wording for the name key: split the `FN` value on single spaces,
first name = first token (empty when there are none), last name = last token
only when there is more than one token, joined as `"<last>, <first>"`. -/
def specNameKeyOf (fnValue : String) : String :=
  let toks := pySplit ' ' fnValue
  let first := toks.headD ""
  let last := if 1 < toks.length then toks.getLastD "" else ""
  last ++ ", " ++ first

/-- The `FN` value the name-key extractor reads: the single instance's value,
or the empty string when `FN` is absent. -/
def fnValueOf (vcard : Record) : String :=
  match alookup "FN" vcard with
  | some (.one pv) => pv.value
  | _ => ""

/-! ### Identity-tagged duplicate grouper (spec §4.4/§9)

Modelled from the spec: §9 prescribes "tagging each Record with a
locally-unique sequence id at scan time, so group membership and unique-list
exclusion are computed by id comparison, never by structural/value equality".
The scan is the same as the code's; only the removal step differs, filtering
the unique list by the ids collected in the duplicate groups. -/

structure ScanStateT where
  duplicates : List (String × List (Nat × Record))
  unique : List (Nat × Record)
  seen : List (String × (Nat × Record))
deriving DecidableEq, Repr

/-- One scan iteration over an id-tagged record (same branching as
`scanStep`, decisions depend only on the record). -/
def scanStepT (st : ScanStateT) (iv : Nat × Record) : Option ScanStateT :=
  match nameKey iv.2 with
  | none => none
  | some key =>
    match alookup key st.seen with
    | some seed =>
      let dups :=
        match alookup key st.duplicates with
        | some _ => st.duplicates
        | none => st.duplicates ++ [(key, [seed])]
      some { st with duplicates := dictListAppend dups key iv }
    | none =>
      some { st with unique := st.unique ++ [iv],
                     seen := st.seen ++ [(key, iv)] }

/-- The scan over a list of id-tagged records. -/
def scanAllT (tagged : List (Nat × Record)) : Option ScanStateT :=
  tagged.foldl (fun ost iv => ost.bind (fun st => scanStepT st iv))
    (some ⟨[], [], []⟩)

/-- The identity-based duplicate grouper of spec §4.4/§9: scan id-tagged
records, then exclude from the unique list exactly the ids that ended up in
some duplicate group, and strip the tags. -/
def organizeByIdRef (vcards : List Record) :
    Option (List Record × List (String × List Record)) :=
  (scanAllT vcards.enum).map
    (fun st =>
      let dupIds := st.duplicates.flatMap (fun kl => kl.2.map Prod.fst)
      ((st.unique.filter (fun iv => ¬ dupIds.contains iv.1)).map Prod.snd,
       st.duplicates.map (fun kl => (kl.1, kl.2.map Prod.snd))))

/-- Forgetting the id tags of a tagged scan state. -/
def projT (st : ScanStateT) : ScanState :=
  ⟨st.duplicates.map (fun kl => (kl.1, kl.2.map Prod.snd)),
   st.unique.map Prod.snd,
   st.seen.map (fun kv => (kv.1, kv.2.2))⟩

/-- The inductive invariant of the tagged duplicate-grouping scan: `n` is the
next id to be assigned and `ms` the multiset of records processed so far.
The unique list mirrors `seen_names`; seen keys, seen ids and duplicate keys
are pairwise distinct; every group is headed by the seen record of its key,
all its members carry that key, and its non-head members' ids name none of
the seen records; all ids are below `n`; and the seen records together with
the non-head group members are exactly the processed records. -/
def ScanInv (st : ScanStateT) (n : Nat) (ms : Multiset Record) : Prop :=
  st.unique = st.seen.map Prod.snd ∧
  (keysOf st.seen).Nodup ∧
  (∀ kv ∈ st.seen, nameKey kv.2.2 = some kv.1) ∧
  (∀ kg ∈ st.duplicates,
    ∃ s, alookup kg.1 st.seen = some s ∧ kg.2.head? = some s) ∧
  (∀ kg ∈ st.duplicates, ∀ m ∈ kg.2, nameKey m.2 = some kg.1) ∧
  (keysOf st.duplicates).Nodup ∧
  (∀ kg ∈ st.duplicates, ∀ m ∈ kg.2.tail,
    ¬ m.1 ∈ st.seen.map (fun kv => kv.2.1)) ∧
  (st.seen.map (fun kv => kv.2.1)).Nodup ∧
  (∀ i ∈ st.seen.map (fun kv => kv.2.1), i < n) ∧
  (∀ kg ∈ st.duplicates, ∀ m ∈ kg.2, m.1 < n) ∧
  (↑(st.seen.map (fun kv => kv.2.2)) : Multiset Record) +
    ↑(st.duplicates.flatMap (fun kg => kg.2.tail.map Prod.snd)) = ms

/-! ## Well-formedness for the round-trip law (C2)

The conditions below characterise the canonical image of the parser on which
serialization inverts parsing: values are `strip`-invariant, names and
parameter tokens are free of the structural characters `':'` and `';'`, the
name does not begin with a fold character, the parameter list is not the
single empty token (a line such as `TEL;:555` parses to `params = [""]`,
which re-serializes without the empty parameter), multi-instance entries
really hold at least two instances, and the record is the parser's
`BEGIN ... END` sandwich with distinct interior keys. -/

/-- A property value in canonical (re-parseable) form. -/
def wfPropValue (pv : PropertyValue) : Bool :=
  pyStrip pv.value = pv.value &&
    pv.params ≠ [""] &&
    pv.params.all (fun p => ¬ ':' ∈ p.data && ¬ ';' ∈ p.data)

/-- A property name in canonical form. -/
def wfKeyName (k : String) : Bool :=
  k ≠ "BEGIN" && k ≠ "END" &&
    ¬ ':' ∈ k.data && ¬ ';' ∈ k.data &&
    (match k.data with
     | [] => true
     | c :: _ => ¬ (c = ' ' || c = '\t'))

/-- A stored entry in canonical form. -/
def wfEntry : PropEntry → Bool
  | .one pv => wfPropValue pv
  | .many pvs => decide (2 ≤ pvs.length) && pvs.all wfPropValue

/-- The interior of a record (between the `BEGIN` and `END` entries) in
canonical form. -/
def wfMid (mid : Record) : Bool :=
  decide (keysOf mid).Nodup && mid.all (fun kv => wfKeyName kv.1 && wfEntry kv.2)

/-- The shape every record produced by `read_vcards` has: the `BEGIN` entry
first, the `END` entry last. -/
def sandwich (mid : Record) : Record :=
  ("BEGIN", .one ⟨"VCARD", []⟩) :: mid ++ [("END", .one ⟨"VCARD", []⟩)]

example : parse_vcard ["BEGIN:VCARD", "FN:John Doe", "TEL;CELL:555-1111",
    "TEL:555-2222", "NOTE:line one", " and more", "END:VCARD"] =
    [("BEGIN", .one ⟨"VCARD", []⟩),
     ("FN", .one ⟨"John Doe", []⟩),
     ("TEL", .many [⟨"555-1111", ["CELL"]⟩, ⟨"555-2222", []⟩]),
     ("NOTE", .one ⟨"line oneand more", []⟩),
     ("END", .one ⟨"VCARD", []⟩)] := by decide

example : vcard_to_string_lines
    [("BEGIN", .one ⟨"VCARD", []⟩),
     ("FN", .one ⟨"John Doe", []⟩),
     ("TEL", .many [⟨"555-1111", ["CELL"]⟩, ⟨"555-2222", []⟩]),
     ("END", .one ⟨"VCARD", []⟩)] =
    ["BEGIN:VCARD", "FN:John Doe", "TEL;CELL:555-1111", "TEL:555-2222",
     "END:VCARD"] := by decide

/-! ## Theorems -/

/-- C1: merging the duplicate group `{"Doe, John"}` whose two members carry
`TEL:555-1111` and `TEL:555-2222` produces a merged record whose `TEL`
property is the *single* instance `555-2222`: `new_vcard.update` overwrites
the binding of an existing property name, so of two distinct surviving
instances only the last registered one reaches the merged record, contrary
to the documented aggregation guarantee. -/
theorem clean_and_aggregate_loses_distinct_tel :
    clean_and_aggregate_vcards
      [("Doe, John",
        [parse_vcard ["BEGIN:VCARD", "FN:John Doe", "TEL:555-1111",
           "END:VCARD"],
         parse_vcard ["BEGIN:VCARD", "FN:John Doe", "TEL:555-2222",
           "END:VCARD"]])] =
      [("Doe, John",
        [[("END", .one ⟨"VCARD", []⟩),
          ("FN", .one ⟨"John Doe", []⟩),
          ("TEL", .one ⟨"555-2222", []⟩)]])] := by decide

/-- C2 (counterexample): the record parsed from the block
`BEGIN:VCARD / TEL;:555 / END:VCARD` stores the parameter list `[""]`; its
serialization drops the empty parameter token, so re-parsing the
serialization does not return the same record. -/
theorem roundtrip_fails_on_empty_param :
    parse_vcard (vcard_to_string_lines
        (parse_vcard ["BEGIN:VCARD", "TEL;:555", "END:VCARD"])) ≠
      parse_vcard ["BEGIN:VCARD", "TEL;:555", "END:VCARD"] := by decide

/-- C3 (counterexample): parsing the block `BEGIN:VCARD / FN:X / END:VCARD`
stores the boundary marker line as the map entry `BEGIN ↦ VCARD` — the
parser treats the marker lines as ordinary colon-bearing properties. -/
theorem parse_stores_begin_marker :
    alookup "BEGIN" (parse_vcard ["BEGIN:VCARD", "FN:X", "END:VCARD"]) =
      some (.one ⟨"VCARD", []⟩) ∧
    alookup "END" (parse_vcard ["BEGIN:VCARD", "FN:X", "END:VCARD"]) =
      some (.one ⟨"VCARD", []⟩) := by decide

/-- C5 (counterexample): on the raw lines `["A:1", " x "]` the code unfolds
to `["A:1x"]` (all trailing whitespace of the continuation is stripped before
it is appended), while stripping only trailing line terminators, as the claim
states, would unfold to `["A:1x "]`. -/
theorem preprocess_differs_from_claim :
    preprocess_vcard_lines ["A:1", " x "] ≠
      preprocessPerClaim ["A:1", " x "] ∧
    preprocess_vcard_lines ["A:1", " x "] = ["A:1x"] := by decide

/-- Once the scan of `organize_duplicates` has failed, it stays failed. -/
theorem scanFold_none (l : List Record) :
    l.foldl (fun ost vc => ost.bind (fun st => scanStep st vc)) none = none := by
  induction l with
  | nil => rfl
  | cons x xs ih => exact ih

/-- The scan of `organize_duplicates` fails whenever some input record has no
name key (its `FN` entry is a list, so `extract_name` raises). -/
theorem scanFold_mem_none (v : Record) (hv : nameKey v = none) :
    ∀ (l : List Record) (acc : Option ScanState), v ∈ l →
      l.foldl (fun ost vc => ost.bind (fun st => scanStep st vc)) acc =
        none := by
  intro l
  induction l with
  | nil => intro acc h; cases h
  | cons x xs ih =>
    intro acc h
    rcases List.mem_cons.mp h with rfl | h
    · show xs.foldl _ (acc.bind (fun st => scanStep st v)) = none
      have hstep : acc.bind (fun st => scanStep st v) = none := by
        cases acc with
        | none => rfl
        | some st => simp [Option.bind, scanStep, hv]
      rw [hstep]
      exact scanFold_none xs
    · exact ih _ h

/-- C10: when a record's `FN` property holds more than one instance (so the
stored entry is a list), `extract_name` raises (`none` in this model) instead
of returning a name, and the duplicate grouper on any list containing such a
record raises as well — its precondition is a single `FN` instance per
record. -/
theorem extract_name_errors_on_multi_fn (vcard : Record)
    (pvs : List PropertyValue) (vcards : List Record)
    (hfn : alookup "FN" vcard = some (.many pvs)) (hmem : vcard ∈ vcards) :
    extract_name vcard = none ∧ organize_duplicates vcards = none := by
  have he : extract_name vcard = none := by simp [extract_name, hfn]
  refine ⟨he, ?_⟩
  have hk : nameKey vcard = none := by simp [nameKey, he]
  simp [organize_duplicates, scanAll,
    scanFold_mem_none vcard hk vcards _ hmem]

/-- Witness for C10 at a concrete two-instance `FN` record. -/
theorem extract_name_errors_on_multi_fn_witness :
    alookup "FN" ([("FN", .many [⟨"A", []⟩, ⟨"B", []⟩])] : Record) =
        some (.many [⟨"A", []⟩, ⟨"B", []⟩]) ∧
      ([("FN", .many [⟨"A", []⟩, ⟨"B", []⟩])] : Record) ∈
        [[("FN", .many [⟨"A", []⟩, ⟨"B", []⟩])]] ∧
      (extract_name [("FN", .many [⟨"A", []⟩, ⟨"B", []⟩])] = none ∧
        organize_duplicates [[("FN", .many [⟨"A", []⟩, ⟨"B", []⟩])]] = none) :=
  ⟨by decide, by decide,
    extract_name_errors_on_multi_fn [("FN", .many [⟨"A", []⟩, ⟨"B", []⟩])]
      [⟨"A", []⟩, ⟨"B", []⟩] [[("FN", .many [⟨"A", []⟩, ⟨"B", []⟩])]]
      (by decide) (by decide)⟩

/-- C7: for a record whose `FN` is absent or a single instance, the grouping
key is exactly the spec's description — split the `FN` value (empty when
absent) on single spaces, first name = first token, last name = last token
only when there is more than one, joined as `"<last>, <first>"`. -/
theorem extract_name_key_matches_spec (vcard : Record)
    (h : alookup "FN" vcard = none ∨
      ∃ pv, alookup "FN" vcard = some (.one pv)) :
    nameKey vcard = some (specNameKeyOf (fnValueOf vcard)) := by
  have key : ∀ s : String,
      (nameParts s).2 ++ ", " ++ (nameParts s).1 = specNameKeyOf s := by
    intro s
    simp only [nameParts, specNameKeyOf]
    cases hp : pySplit ' ' s <;> simp [List.headD]
  rcases h with h | ⟨pv, h⟩ <;>
    simp [nameKey, extract_name, fnValueOf, h, key]

/-- Witness for C7 at a concrete record. -/
theorem extract_name_key_matches_spec_witness :
    (alookup "FN" ([("FN", .one ⟨"John Q Doe", []⟩)] : Record) = none ∨
      ∃ pv, alookup "FN" ([("FN", .one ⟨"John Q Doe", []⟩)] : Record) =
        some (.one pv)) ∧
      nameKey [("FN", .one ⟨"John Q Doe", []⟩)] =
        some (specNameKeyOf (fnValueOf [("FN", .one ⟨"John Q Doe", []⟩)])) :=
  ⟨Or.inr ⟨⟨"John Q Doe", []⟩, by decide⟩,
    extract_name_key_matches_spec _ (Or.inr ⟨⟨"John Q Doe", []⟩, by decide⟩)⟩

/-- Unfolding the null filter at a single-instance property. -/
theorem remove_null_cons_one (k : String) (v : PropertyValue) (rest : Record) :
    remove_null_values_rec ((k, .one v) :: rest) =
      if isNullValue v then remove_null_values_rec rest
      else (k, .one v) :: remove_null_values_rec rest := rfl

/-- Unfolding the null filter at a list-valued property. -/
theorem remove_null_cons_many (k : String) (vs : List PropertyValue)
    (rest : Record) :
    remove_null_values_rec ((k, .many vs) :: rest) =
      if vs.filter (fun v => ¬ isNullValue v) = [] then
        remove_null_values_rec rest
      else (k, .many (vs.filter (fun v => ¬ isNullValue v))) ::
        remove_null_values_rec rest := rfl

/-- Unfolding `alookup` at a cons cell. -/
theorem alookup_cons {α : Type} (k k2 : String) (v : α)
    (m : List (String × α)) :
    alookup k ((k2, v) :: m) = if k2 = k then some v else alookup k m := rfl

/-- A key absent from a record stays absent after the null filter. -/
theorem alookup_remove_null_of_not_mem (k : String) (r : Record)
    (h : ¬ k ∈ keysOf r) : alookup k (remove_null_values_rec r) = none := by
  induction r with
  | nil => rfl
  | cons kv rest ih =>
    simp only [keysOf, List.map_cons, List.mem_cons, not_or] at h
    obtain ⟨hk, hrest⟩ := h
    have ihr := ih (by simpa [keysOf] using hrest)
    obtain ⟨k2, e2⟩ := kv
    simp only at hk
    cases e2 with
    | one pv =>
      rw [remove_null_cons_one]
      by_cases hnull : isNullValue pv
      · rw [if_pos hnull]; exact ihr
      · rw [if_neg hnull, alookup_cons, if_neg (Ne.symm hk)]; exact ihr
    | many pvs =>
      rw [remove_null_cons_many]
      by_cases hemp : pvs.filter (fun v => ¬ isNullValue v) = []
      · rw [if_pos hemp]; exact ihr
      · rw [if_neg hemp, alookup_cons, if_neg (Ne.symm hk)]; exact ihr

/-- C6: after the null filter, (a) no surviving property instance has a value
equal to `NULL` case-insensitively; (b) a property whose every instance was
`NULL` is absent; (c) a list-valued property with at least one non-`NULL`
instance keeps exactly its non-`NULL` instances, in order, still as a list. -/
theorem remove_null_values_spec (r : Record) (hnd : (keysOf r).Nodup) :
    (∀ kv ∈ remove_null_values_rec r, ∀ pv ∈ kv.2.instances,
      ¬ isNullValue pv) ∧
    (∀ k e, alookup k r = some e → (∀ pv ∈ e.instances, isNullValue pv) →
      alookup k (remove_null_values_rec r) = none) ∧
    (∀ k pvs, alookup k r = some (.many pvs) →
      (∃ pv ∈ pvs, ¬ isNullValue pv) →
      alookup k (remove_null_values_rec r) =
        some (.many (pvs.filter (fun v => ¬ isNullValue v)))) := by
  induction r with
  | nil =>
    refine ⟨by simp [remove_null_values_rec], ?_, ?_⟩ <;> intro k e h <;>
      simp [alookup] at h
  | cons kv rest ih =>
    simp only [keysOf, List.map_cons, List.nodup_cons] at hnd
    obtain ⟨hknotin, hndrest⟩ := hnd
    obtain ⟨ha, hb, hc⟩ := ih hndrest
    obtain ⟨k2, e2⟩ := kv
    simp only at hknotin
    refine ⟨?_, ?_, ?_⟩
    · intro kv2 hmem pv hpv
      cases e2 with
      | one v =>
        rw [remove_null_cons_one] at hmem
        by_cases hnull : isNullValue v
        · rw [if_pos hnull] at hmem
          exact ha kv2 hmem pv hpv
        · rw [if_neg hnull] at hmem
          rcases List.mem_cons.mp hmem with rfl | hmem2
          · simp only [PropEntry.instances, List.mem_singleton] at hpv
            subst hpv; exact hnull
          · exact ha kv2 hmem2 pv hpv
      | many vs =>
        rw [remove_null_cons_many] at hmem
        by_cases hemp : vs.filter (fun v => ¬ isNullValue v) = []
        · rw [if_pos hemp] at hmem
          exact ha kv2 hmem pv hpv
        · rw [if_neg hemp] at hmem
          rcases List.mem_cons.mp hmem with rfl | hmem2
          · simp only [PropEntry.instances, List.mem_filter] at hpv
            simpa using hpv.2
          · exact ha kv2 hmem2 pv hpv
    · intro k e hlk hall
      by_cases hk : k2 = k
      · subst hk
        rw [alookup_cons, if_pos rfl] at hlk
        injection hlk with he
        rw [← he] at hall
        have habs : alookup k2 (remove_null_values_rec rest) = none :=
          alookup_remove_null_of_not_mem k2 rest (by
            simpa [keysOf] using hknotin)
        cases e2 with
        | one v =>
          have hnull : isNullValue v := hall v (by
            simp [PropEntry.instances])
          rw [remove_null_cons_one, if_pos hnull]
          exact habs
        | many vs =>
          have hemp : vs.filter (fun v => ¬ isNullValue v) = [] := by
            rw [List.filter_eq_nil_iff]
            intro v hv
            simp [hall v (by simpa [PropEntry.instances] using hv)]
          rw [remove_null_cons_many, if_pos hemp]
          exact habs
      · rw [alookup_cons, if_neg hk] at hlk
        have htail := hb k e hlk hall
        cases e2 with
        | one v =>
          rw [remove_null_cons_one]
          by_cases hnull : isNullValue v
          · rw [if_pos hnull]; exact htail
          · rw [if_neg hnull, alookup_cons, if_neg hk]; exact htail
        | many vs =>
          rw [remove_null_cons_many]
          by_cases hemp : vs.filter (fun v => ¬ isNullValue v) = []
          · rw [if_pos hemp]; exact htail
          · rw [if_neg hemp, alookup_cons, if_neg hk]; exact htail
    · intro k pvs hlk hex
      by_cases hk : k2 = k
      · subst hk
        rw [alookup_cons, if_pos rfl] at hlk
        injection hlk with he
        subst he
        have hemp : ¬ pvs.filter (fun v => ¬ isNullValue v) = [] := by
          obtain ⟨pv, hpv, hn⟩ := hex
          intro hcon
          have := List.filter_eq_nil_iff.mp hcon pv hpv
          simp [hn] at this
        rw [remove_null_cons_many, if_neg hemp, alookup_cons, if_pos rfl]
      · rw [alookup_cons, if_neg hk] at hlk
        have htail := hc k pvs hlk hex
        cases e2 with
        | one v =>
          rw [remove_null_cons_one]
          by_cases hnull : isNullValue v
          · rw [if_pos hnull]; exact htail
          · rw [if_neg hnull, alookup_cons, if_neg hk]; exact htail
        | many vs =>
          rw [remove_null_cons_many]
          by_cases hemp : vs.filter (fun v => ¬ isNullValue v) = []
          · rw [if_pos hemp]; exact htail
          · rw [if_neg hemp, alookup_cons, if_neg hk]; exact htail

/-- Witness for C6 at a concrete record mixing `NULL` and real values. -/
theorem remove_null_values_spec_witness :
    (keysOf [("TEL", PropEntry.many [⟨"NULL", []⟩, ⟨"555-1111", ["CELL"]⟩]),
        ("NOTE", PropEntry.one ⟨"null", []⟩)]).Nodup ∧
      alookup "NOTE" (remove_null_values_rec
        [("TEL", PropEntry.many [⟨"NULL", []⟩, ⟨"555-1111", ["CELL"]⟩]),
         ("NOTE", PropEntry.one ⟨"null", []⟩)]) = none ∧
      alookup "TEL" (remove_null_values_rec
        [("TEL", PropEntry.many [⟨"NULL", []⟩, ⟨"555-1111", ["CELL"]⟩]),
         ("NOTE", PropEntry.one ⟨"null", []⟩)]) =
        some (.many [⟨"555-1111", ["CELL"]⟩]) := by
  refine ⟨by decide, ?_, ?_⟩
  · exact (remove_null_values_spec
      [("TEL", PropEntry.many [⟨"NULL", []⟩, ⟨"555-1111", ["CELL"]⟩]),
       ("NOTE", PropEntry.one ⟨"null", []⟩)] (by decide)).2.1 "NOTE"
      (PropEntry.one ⟨"null", []⟩) (by decide) (by decide)
  · have := (remove_null_values_spec
      [("TEL", PropEntry.many [⟨"NULL", []⟩, ⟨"555-1111", ["CELL"]⟩]),
       ("NOTE", PropEntry.one ⟨"null", []⟩)] (by decide)).2.2 "TEL"
      [⟨"NULL", []⟩, ⟨"555-1111", ["CELL"]⟩] (by decide)
      ⟨⟨"555-1111", ["CELL"]⟩, by decide, by decide⟩
    simpa using this

/-- Membership in the first-seen deduplication of a string list. -/
theorem mem_dedupKeepFirstStr (v : String) :
    ∀ l : List String, v ∈ dedupKeepFirstStr l ↔ v ∈ l
  | [] => by simp [dedupKeepFirstStr]
  | x :: xs => by
    rw [dedupKeepFirstStr]
    by_cases hvx : v = x
    · subst hvx; simp
    · simp only [List.mem_cons, hvx, false_or]
      rw [mem_dedupKeepFirstStr v (xs.filter (fun w => w ≠ x))]
      simp [List.mem_filter, hvx]
termination_by l => l.length
decreasing_by
  simp only [List.length_cons]
  exact Nat.lt_succ_of_le (List.length_filter_le _ _)

/-- First-seen deduplication yields pairwise-distinct strings. -/
theorem nodup_dedupKeepFirstStr :
    ∀ l : List String, (dedupKeepFirstStr l).Nodup
  | [] => by simp [dedupKeepFirstStr]
  | x :: xs => by
    rw [dedupKeepFirstStr]
    refine List.nodup_cons.mpr ⟨?_, nodup_dedupKeepFirstStr _⟩
    rw [mem_dedupKeepFirstStr]
    simp
termination_by l => l.length
decreasing_by
  simp only [List.length_cons]
  exact Nat.lt_succ_of_le (List.length_filter_le _ _)

/-- Appending an already-seen string does not change the deduplication. -/
theorem dedupKeepFirstStr_append_mem (v : String) :
    ∀ l : List String, v ∈ l →
      dedupKeepFirstStr (l ++ [v]) = dedupKeepFirstStr l
  | [], h => by cases h
  | x :: xs, h => by
    rw [List.cons_append, dedupKeepFirstStr, dedupKeepFirstStr,
      List.filter_append]
    by_cases hvx : v = x
    · simp [hvx]
    · rcases List.mem_cons.mp h with hx | hmem
      · exact absurd hx hvx
      · have : List.filter (fun w => w ≠ x) [v] = [v] := by simp [hvx]
        rw [this, dedupKeepFirstStr_append_mem v (xs.filter (fun w => w ≠ x))
          (List.mem_filter.mpr ⟨hmem, by simp [hvx]⟩)]
termination_by l => l.length
decreasing_by
  simp only [List.length_cons]
  exact Nat.lt_succ_of_le (List.length_filter_le _ _)

/-- Appending an unseen string appends it to the deduplication. -/
theorem dedupKeepFirstStr_append_not_mem (v : String) :
    ∀ l : List String, ¬ v ∈ l →
      dedupKeepFirstStr (l ++ [v]) = dedupKeepFirstStr l ++ [v]
  | [], _ => by simp [dedupKeepFirstStr]
  | x :: xs, h => by
    have hvx : v ≠ x := fun hx => h (by simp [hx])
    have hvxs : ¬ v ∈ xs := fun hm => h (by simp [hm])
    rw [List.cons_append, dedupKeepFirstStr, dedupKeepFirstStr,
      List.filter_append]
    have : List.filter (fun w => w ≠ x) [v] = [v] := by simp [hvx]
    rw [this, dedupKeepFirstStr_append_not_mem v
      (xs.filter (fun w => w ≠ x)) (fun hm => hvxs (List.mem_filter.mp hm).1)]
    simp
termination_by l => l.length
decreasing_by
  simp only [List.length_cons]
  exact Nat.lt_succ_of_le (List.length_filter_le _ _)

/-- `dictSet` on a key-indexed map with pairwise-distinct keys, key present:
replace the unique binding in place. -/
theorem dictSet_tabulate_mem (f : String → PropertyValue) (k : String)
    (pv : PropertyValue) :
    ∀ l : List String, l.Nodup → k ∈ l →
      dictSet (l.map (fun v => (v, f v))) k pv =
        l.map (fun v => (v, if v = k then pv else f v))
  | [], _, h => by cases h
  | x :: xs, hnd, h => by
    obtain ⟨hx, hnd'⟩ := List.nodup_cons.mp hnd
    rw [List.map_cons, List.map_cons, dictSet]
    by_cases hxk : x = k
    · subst hxk
      rw [if_pos rfl]
      have : xs.map (fun v => (v, if v = x then pv else f v)) =
          xs.map (fun v => (v, f v)) := by
        apply List.map_congr_left
        intro v hv
        have : v ≠ x := fun he => hx (he ▸ hv)
        simp [this]
      rw [if_pos rfl, this]
    · rw [if_neg hxk, if_neg hxk,
        dictSet_tabulate_mem f k pv xs hnd'
          (by rcases List.mem_cons.mp h with h' | h'
              · exact absurd h'.symm hxk
              · exact h')]

/-- `dictSet` on a key-indexed map, key absent: append the new binding. -/
theorem dictSet_tabulate_not_mem (f : String → PropertyValue) (k : String)
    (pv : PropertyValue) :
    ∀ l : List String, ¬ k ∈ l →
      dictSet (l.map (fun v => (v, f v))) k pv =
        l.map (fun v => (v, f v)) ++ [(k, pv)]
  | [], _ => rfl
  | x :: xs, h => by
    have hxk : x ≠ k := fun he => h (by simp [he])
    rw [List.map_cons, dictSet, if_neg hxk,
      dictSet_tabulate_not_mem f k pv xs (fun hm => h (by simp [hm]))]
    simp

/-- The last instance with a given value, after appending one instance. -/
theorem lastWithValue_append (pvs : List PropertyValue)
    (a : PropertyValue) (v : String) :
    lastWithValue (pvs ++ [a]) v =
      if a.value = v then a else lastWithValue pvs v := by
  unfold lastWithValue
  rw [List.filter_append]
  by_cases hav : a.value = v
  · simp [hav]
  · simp [hav]

/-- The `unique_phones` dict built by `remove_duplicate_phone_numbers` is
exactly: one binding per distinct raw value in first-occurrence order, each
holding the last instance carrying that value. -/
theorem phoneFold_eq (pvs : List PropertyValue) :
    pvs.foldl (fun m pv => dictSet m pv.value pv) [] =
      (dedupKeepFirstStr (pvs.map PropertyValue.value)).map
        (fun v => (v, lastWithValue pvs v)) := by
  induction pvs using List.reverseRecOn with
  | nil => simp [dedupKeepFirstStr]
  | append_singleton l a ih =>
    rw [List.foldl_append, List.foldl_cons, List.foldl_nil, ih,
      List.map_append]
    by_cases hmem : a.value ∈ l.map PropertyValue.value
    · rw [dictSet_tabulate_mem _ _ _ _
        (nodup_dedupKeepFirstStr _) ((mem_dedupKeepFirstStr _ _).mpr hmem)]
      rw [show (List.map PropertyValue.value [a]) = [a.value] from rfl,
        dedupKeepFirstStr_append_mem _ _ hmem]
      apply List.map_congr_left
      intro v hv
      rw [lastWithValue_append]
      by_cases hva : v = a.value
      · simp [hva]
      · rw [if_neg hva, if_neg (fun h => hva h.symm)]
    · rw [dictSet_tabulate_not_mem _ _ _ _
        ((mem_dedupKeepFirstStr _ _).not.mpr hmem)]
      rw [show (List.map PropertyValue.value [a]) = [a.value] from rfl,
        dedupKeepFirstStr_append_not_mem _ _ hmem]
      rw [List.map_append]
      congr 1
      · apply List.map_congr_left
        intro v hv
        have hva : ¬ a.value = v := by
          intro he
          exact hmem (he ▸ ((mem_dedupKeepFirstStr _ _).mp hv))
        rw [lastWithValue_append, if_neg hva]
      · simp [lastWithValue_append]

/-- C9: for a record with a `TEL` property, the phone deduplicator replaces
`TEL` in place with the sequence of instances with distinct raw values in
first-distinct-value order, each being the last occurrence of its value
(last-seen parameters win), and the stored shape is always a sequence. -/
theorem remove_duplicate_phones_spec (vcard : Record) (e : PropEntry)
    (h : alookup "TEL" vcard = some e) :
    remove_duplicate_phones_rec vcard =
      dictSet vcard "TEL" (.many (specPhoneDedup e.instances)) := by
  simp only [remove_duplicate_phones_rec, h]
  congr 2
  rw [phoneFold_eq]
  unfold specPhoneDedup
  rw [List.map_map]
  rfl

/-- Witness for C9: `TEL;CELL:555-1111` followed by `TEL:555-2222` and
`TEL;HOME:555-1111` keeps `555-1111` with the `HOME` parameters, first. -/
theorem remove_duplicate_phones_spec_witness :
    alookup "TEL" ([("TEL", PropEntry.many
        [⟨"555-1111", ["CELL"]⟩, ⟨"555-2222", []⟩, ⟨"555-1111", ["HOME"]⟩])] :
        Record) = some (PropEntry.many
        [⟨"555-1111", ["CELL"]⟩, ⟨"555-2222", []⟩, ⟨"555-1111", ["HOME"]⟩]) ∧
      remove_duplicate_phones_rec
        [("TEL", PropEntry.many
          [⟨"555-1111", ["CELL"]⟩, ⟨"555-2222", []⟩, ⟨"555-1111", ["HOME"]⟩])] =
        dictSet
          [("TEL", PropEntry.many
            [⟨"555-1111", ["CELL"]⟩, ⟨"555-2222", []⟩, ⟨"555-1111", ["HOME"]⟩])]
          "TEL"
          (.many (specPhoneDedup (PropEntry.many
            [⟨"555-1111", ["CELL"]⟩, ⟨"555-2222", []⟩,
             ⟨"555-1111", ["HOME"]⟩]).instances)) :=
  ⟨by decide,
    remove_duplicate_phones_spec
      [("TEL", PropEntry.many
        [⟨"555-1111", ["CELL"]⟩, ⟨"555-2222", []⟩, ⟨"555-1111", ["HOME"]⟩])]
      (PropEntry.many
        [⟨"555-1111", ["CELL"]⟩, ⟨"555-2222", []⟩, ⟨"555-1111", ["HOME"]⟩])
      (by decide)⟩

/-- The seen-set loop of `remove_identical_entries` computes the keep-the-
first-per-distinct-serialization function, relative to what is already seen
and kept. -/
theorem dedupBySerialAux_eq :
    ∀ (g : List Record) (uniq : List Record) (seen : List String),
      dedupBySerialAux uniq seen g =
        uniq ++ specDedupBySerial
          (g.filter (fun r => ¬ seen.contains (vcard_to_string r))) := by
  intro g
  induction g with
  | nil => intro uniq seen; simp [dedupBySerialAux, specDedupBySerial]
  | cons r gs ih =>
    intro uniq seen
    rw [dedupBySerialAux]
    by_cases hs : vcard_to_string r ∈ seen
    · rw [if_pos (by simpa using hs), ih]
      have : (r :: gs).filter
          (fun r => ¬ seen.contains (vcard_to_string r)) =
          gs.filter (fun r => ¬ seen.contains (vcard_to_string r)) := by
        rw [List.filter_cons]
        simp [hs]
      rw [this]
    · rw [if_neg (by simpa using hs), ih]
      have hstep : (r :: gs).filter
          (fun r => ¬ seen.contains (vcard_to_string r)) =
          r :: gs.filter (fun r => ¬ seen.contains (vcard_to_string r)) := by
        rw [List.filter_cons]
        simp [hs]
      rw [hstep, specDedupBySerial]
      have hff : (gs.filter
            (fun r => ¬ seen.contains (vcard_to_string r))).filter
            (fun w => vcard_to_string w ≠ vcard_to_string r) =
          gs.filter (fun w =>
            ¬ (seen ++ [vcard_to_string r]).contains (vcard_to_string w)) := by
        rw [List.filter_filter]
        apply List.filter_congr
        intro w _
        by_cases h1 : vcard_to_string w = vcard_to_string r <;>
          by_cases h2 : vcard_to_string w ∈ seen <;>
            simp [h1, h2]
      rw [hff]
      simp

/-- The promotion loop of `move_unique_entries_back`, with accumulators made
explicit: singleton groups move to the main list, others stay, order kept. -/
theorem moveUniqueFold_eq :
    ∀ (d : List (String × List Record)) (acc : List (String × List Record))
      (main : List Record),
      d.foldl
        (fun dm kl =>
          if kl.2.length = 1 then (dm.1, dm.2 ++ [kl.2.headD []])
          else (dm.1 ++ [kl], dm.2))
        (acc, main) =
      (acc ++ d.filter (fun kl => kl.2.length ≠ 1),
       main ++ (d.filter (fun kl => kl.2.length = 1)).map
         (fun kl => kl.2.headD [])) := by
  intro d
  induction d with
  | nil => intro acc main; simp
  | cons kl d ih =>
    intro acc main
    rw [List.foldl_cons]
    by_cases h1 : kl.2.length = 1
    · rw [if_pos h1, ih]
      rw [List.filter_cons, List.filter_cons]
      simp [h1]
    · rw [if_neg h1, ih]
      rw [List.filter_cons, List.filter_cons]
      simp [h1]

/-- A collapsed nonempty group is nonempty. -/
theorem specDedupBySerial_ne_nil (g : List Record) (h : g ≠ []) :
    specDedupBySerial g ≠ [] := by
  cases g with
  | nil => exact absurd rfl h
  | cons r gs => rw [specDedupBySerial]; simp

/-- C8: on a duplicates dict whose groups are nonempty, (a) the exact-
duplicate collapse keeps, per group, exactly the first record per distinct
serialized string in original order; (b) the promotion step then moves each
singleton group's record to the end of the main list and deletes the group,
keeping everything else in order; (c) every surviving group has at least two
members. -/
theorem clean_duplicates_spec (dups : List (String × List Record))
    (main : List Record) (hne : ∀ kl ∈ dups, kl.2 ≠ []) :
    remove_identical_entries dups =
      dups.map (fun kl => (kl.1, specDedupBySerial kl.2)) ∧
    clean_duplicates dups main =
      ((dups.map (fun kl => (kl.1, specDedupBySerial kl.2))).filter
         (fun kl => kl.2.length ≠ 1),
       main ++ ((dups.map (fun kl => (kl.1, specDedupBySerial kl.2))).filter
         (fun kl => kl.2.length = 1)).map (fun kl => kl.2.headD [])) ∧
    (∀ kl ∈ (clean_duplicates dups main).1, 2 ≤ kl.2.length) := by
  have hcollapse : remove_identical_entries dups =
      dups.map (fun kl => (kl.1, specDedupBySerial kl.2)) := by
    unfold remove_identical_entries
    apply List.map_congr_left
    intro kl _
    rw [dedupBySerialAux_eq]
    simp [List.filter_eq_self]
  have hmove : clean_duplicates dups main =
      ((dups.map (fun kl => (kl.1, specDedupBySerial kl.2))).filter
         (fun kl => kl.2.length ≠ 1),
       main ++ ((dups.map (fun kl => (kl.1, specDedupBySerial kl.2))).filter
         (fun kl => kl.2.length = 1)).map (fun kl => kl.2.headD [])) := by
    unfold clean_duplicates move_unique_entries_back
    rw [hcollapse, moveUniqueFold_eq]
    simp
  refine ⟨hcollapse, hmove, ?_⟩
  intro kl hmem
  rw [hmove] at hmem
  simp only [List.mem_filter, List.mem_map] at hmem
  obtain ⟨⟨kl0, hkl0, rfl⟩, hlen⟩ := hmem
  have hnz : specDedupBySerial kl0.2 ≠ [] :=
    specDedupBySerial_ne_nil kl0.2 (hne kl0 hkl0)
  have hpos : 1 ≤ (specDedupBySerial kl0.2).length :=
    Nat.one_le_iff_ne_zero.mpr (fun h0 => hnz (List.length_eq_zero.mp h0))
  have hlen2 : (specDedupBySerial kl0.2).length ≠ 1 := by simpa using hlen
  show 2 ≤ (specDedupBySerial kl0.2).length
  omega

/-- Witness for C8 at a concrete duplicates dict: a group of two distinct
same-named records survives the collapse with both members. -/
theorem clean_duplicates_spec_witness :
    (∀ kl ∈ [("Doe, John",
        [parse_vcard ["BEGIN:VCARD", "FN:John Doe", "TEL:1", "END:VCARD"],
         parse_vcard ["BEGIN:VCARD", "FN:John Doe", "TEL:2", "END:VCARD"]])],
      kl.2 ≠ ([] : List Record)) ∧
    (∀ kl ∈ (clean_duplicates
        [("Doe, John",
          [parse_vcard ["BEGIN:VCARD", "FN:John Doe", "TEL:1", "END:VCARD"],
           parse_vcard ["BEGIN:VCARD", "FN:John Doe", "TEL:2",
             "END:VCARD"]])] []).1,
      2 ≤ kl.2.length) :=
  ⟨by decide,
    (clean_duplicates_spec
      [("Doe, John",
        [parse_vcard ["BEGIN:VCARD", "FN:John Doe", "TEL:1", "END:VCARD"],
         parse_vcard ["BEGIN:VCARD", "FN:John Doe", "TEL:2", "END:VCARD"]])]
      [] (by decide)).2.2⟩

/-- The code's accumulator loop is the same loop run on pre-stripped lines. -/
theorem preprocessAux_eq_goCur :
    ∀ (ls : List String) (cur : String),
      preprocessAux cur ls = unfoldSpecGoCur cur (ls.map pyRstrip) := by
  intro ls
  induction ls with
  | nil => intro cur; rfl
  | cons l ls ih =>
    intro cur
    rw [List.map_cons, preprocessAux, unfoldSpecGoCur]
    by_cases hf : startsFold (pyRstrip l)
    · rw [if_pos hf, if_pos hf, ih]
    · rw [if_neg hf, if_neg hf]
      by_cases hc : cur ≠ ""
      · rw [if_pos hc, if_pos hc, ih]
      · rw [if_neg hc, if_neg hc, ih]

/-- Group characterization of the pending-line loop: the pending line absorbs
the maximal run of continuations, is emitted when nonempty, and the rest is
processed group by group. -/
theorem unfoldSpecGoCur_eq :
    ∀ (ls : List String) (cur : String),
      unfoldSpecGoCur cur ls =
        (if cur ++ dropFirstConcat (ls.takeWhile startsFold) ≠ "" then
          [cur ++ dropFirstConcat (ls.takeWhile startsFold)] else []) ++
        unfoldSpecGo (ls.dropWhile startsFold) := by
  intro ls
  induction ls with
  | nil =>
    intro cur
    simp [unfoldSpecGoCur, unfoldSpecGo, dropFirstConcat]
  | cons l ls ih =>
    intro cur
    rw [unfoldSpecGoCur]
    by_cases hf : startsFold l
    · rw [if_pos hf, ih, List.takeWhile_cons, List.dropWhile_cons]
      simp only [hf, if_true, ite_true]
      rw [show dropFirstConcat (l :: ls.takeWhile startsFold) =
        l.drop 1 ++ dropFirstConcat (ls.takeWhile startsFold) from rfl]
      rw [String.append_assoc]
    · have hlink : unfoldSpecGoCur l ls = unfoldSpecGo (l :: ls) := by
        rw [ih l, unfoldSpecGo]
        simp [hf]
      have hgroup : (l :: ls).takeWhile startsFold = [] := by
        simp [List.takeWhile_cons, hf]
      have hdrop : (l :: ls).dropWhile startsFold = l :: ls := by
        simp [List.dropWhile_cons, hf]
      rw [if_neg hf, hgroup, hdrop,
        show dropFirstConcat ([] : List String) = "" from rfl,
        String.append_empty]
      by_cases hc : cur ≠ ""
      · rw [if_pos hc, if_pos hc, hlink]; rfl
      · rw [if_neg hc, if_neg hc, hlink]; rfl

/-- C5 (amended): the unfolding pass of `preprocess_vcard_lines` equals the
spec-style grouping description in which every raw line is first stripped of
all its trailing whitespace, exactly the stripped lines beginning with a
space or tab are continuations (one leading fold character dropped, remainder
appended), and empty logical lines are dropped. -/
theorem preprocess_eq_unfoldSpec (lines : List String) :
    preprocess_vcard_lines lines = unfoldSpec lines := by
  rw [preprocess_vcard_lines, unfoldSpec, preprocessAux_eq_goCur]
  cases hm : lines.map pyRstrip with
  | nil => simp [unfoldSpecGoCur, unfoldSpecGo]
  | cons l ls =>
    rw [unfoldSpecGoCur]
    by_cases hf : startsFold l
    · rw [if_pos hf, unfoldSpecGoCur_eq, unfoldSpecGo]
      simp [hf, String.empty_append]
    · rw [if_neg hf]
      have hlink : unfoldSpecGoCur l ls = unfoldSpecGo (l :: ls) := by
        rw [unfoldSpecGoCur_eq, unfoldSpecGo]
        simp [hf]
      simp [hlink]

/-- Splitting at the first separator after a separator-free prefix. -/
theorem splitFirstL_prefix (sep : Char) :
    ∀ (pre post : List Char), ¬ sep ∈ pre →
      splitFirstL sep (pre ++ sep :: post) = some (pre, post)
  | [], post, _ => by simp [splitFirstL]
  | c :: pre, post, h => by
    have hcs : ¬ c = sep := fun he => h (by simp [he])
    have hpre : ¬ sep ∈ pre := fun hm => h (by simp [hm])
    rw [List.cons_append, splitFirstL, if_neg hcs,
      splitFirstL_prefix sep pre post hpre]
    rfl

/-- Parsing any logical line that begins with the begin-marker text yields
the property name `BEGIN`, whatever was folded onto the line. -/
theorem parseLine_begin (s : String) :
    ∃ pv, parseLine ("BEGIN:VCARD" ++ s) = some ("BEGIN", pv) := by
  have hdata : ("BEGIN:VCARD" ++ s).data =
      "BEGIN".data ++ ':' :: ("VCARD".data ++ s.data) := by
    show "BEGIN:VCARD".data ++ s.data = _
    rw [show ("BEGIN:VCARD").data = "BEGIN".data ++ ':' :: "VCARD".data from
      by decide, List.append_assoc]
    rfl
  refine ⟨⟨pyStrip ⟨"VCARD".data ++ s.data⟩, []⟩, ?_⟩
  rw [parseLine, splitFirstColon, hdata,
    splitFirstL_prefix ':' _ _ (by decide)]
  rfl

/-- A nonempty pending line survives at the head of the unfolding output,
possibly extended by folded continuations. -/
theorem preprocessAux_exists_head :
    ∀ (ls : List String) (cur : String), cur ≠ "" →
      ∃ t rest, preprocessAux cur ls = (cur ++ t) :: rest := by
  intro ls
  induction ls with
  | nil =>
    intro cur hc
    exact ⟨"", [], by simp [preprocessAux, hc]⟩
  | cons l ls ih =>
    intro cur hc
    rw [preprocessAux]
    by_cases hf : startsFold (pyRstrip l)
    · rw [if_pos hf]
      obtain ⟨t, rest, hrec⟩ := ih (cur ++ (pyRstrip l).drop 1)
        (fun he => hc (String.ext
          (List.append_eq_nil.mp (congrArg String.data he)).1))
      exact ⟨(pyRstrip l).drop 1 ++ t, rest, by
        rw [hrec, String.append_assoc]⟩
    · rw [if_neg hf, if_pos hc]
      exact ⟨"", _, by rw [String.append_empty]⟩

/-- The final, unfoldable end-marker line survives verbatim in the unfolding
output. -/
theorem preprocessAux_mem_last (t : String) (hr : pyRstrip t = t)
    (hf : ¬ startsFold t) (hne : t ≠ "") :
    ∀ (ls : List String) (cur : String), t ∈ preprocessAux cur (ls ++ [t]) := by
  intro ls
  induction ls with
  | nil =>
    intro cur
    rw [List.nil_append, preprocessAux, hr]
    by_cases hc : cur ≠ ""
    · rw [if_neg hf, if_pos hc]
      exact List.mem_cons_of_mem _ (by simp [preprocessAux, hne])
    · rw [if_neg hf, if_neg hc]
      simp [preprocessAux, hne]
  | cons l ls ih =>
    intro cur
    rw [List.cons_append, preprocessAux]
    by_cases hf2 : startsFold (pyRstrip l)
    · rw [if_pos hf2]; exact ih _
    · rw [if_neg hf2]
      by_cases hc : cur ≠ ""
      · rw [if_pos hc]; exact List.mem_cons_of_mem _ (ih _)
      · rw [if_neg hc]; exact ih _

/-- Inserting a parsed property puts its name among the record's keys. -/
theorem mem_keys_insertProp_self (vc : Record) (k : String)
    (pv : PropertyValue) : k ∈ keysOf (insertProp vc k pv) := by
  induction vc with
  | nil => simp [insertProp, keysOf]
  | cons kv rest ih =>
    obtain ⟨k2, e⟩ := kv
    simp only [insertProp]
    by_cases hk : k2 = k
    · rw [if_pos hk]; simp [keysOf, hk]
    · rw [if_neg hk]
      simp only [keysOf, List.map_cons, List.mem_cons]
      exact Or.inr ih

/-- Inserting a parsed property keeps every existing key. -/
theorem mem_keys_insertProp_mono (vc : Record) (k2 : String)
    (pv : PropertyValue) (k : String) (h : k ∈ keysOf vc) :
    k ∈ keysOf (insertProp vc k2 pv) := by
  induction vc with
  | nil => cases h
  | cons kv rest ih =>
    obtain ⟨k3, e⟩ := kv
    simp only [insertProp]
    simp only [keysOf, List.map_cons, List.mem_cons] at h
    by_cases hk : k3 = k2
    · rw [if_pos hk]
      rcases h with rfl | h
      · simp [keysOf]
      · simp only [keysOf, List.map_cons, List.mem_cons]
        exact Or.inr (by simpa [keysOf] using h)
    · rw [if_neg hk]
      rcases h with rfl | h
      · simp [keysOf]
      · simp only [keysOf, List.map_cons, List.mem_cons]
        exact Or.inr (ih (by simpa [keysOf] using h))

/-- The parse loop never loses keys. -/
theorem mem_keys_parseFold_mono :
    ∀ (ls : List String) (vc : Record) (k : String), k ∈ keysOf vc →
      k ∈ keysOf (ls.foldl parseFoldStep vc) := by
  intro ls
  induction ls with
  | nil => intro vc k h; exact h
  | cons l ls ih =>
    intro vc k h
    rw [List.foldl_cons]
    apply ih
    rw [parseFoldStep]
    cases hp : parseLine l with
    | none => exact h
    | some kpv =>
      obtain ⟨k2, pv⟩ := kpv
      exact mem_keys_insertProp_mono _ _ _ _ h

/-- A line in the parse loop's input that parses to name `k` puts `k` among
the resulting record's keys. -/
theorem mem_keys_parseFold_of_mem :
    ∀ (ls : List String) (vc : Record) (l : String) (k : String)
      (pv : PropertyValue), l ∈ ls → parseLine l = some (k, pv) →
      k ∈ keysOf (ls.foldl parseFoldStep vc) := by
  intro ls
  induction ls with
  | nil => intro vc l k pv h; cases h
  | cons x xs ih =>
    intro vc l k pv h hp
    rw [List.foldl_cons]
    rcases List.mem_cons.mp h with rfl | h2
    · apply mem_keys_parseFold_mono
      rw [parseFoldStep, hp]
      exact mem_keys_insertProp_self _ _ _
    · exact ih _ l k pv h2 hp

/-- C3 (amended): for every block handed to the parser the way `read_vcards`
builds blocks — the begin-marker line first, the end-marker line last — the
parsed record *does* contain the boundary markers as ordinary map entries
under the keys `BEGIN` and `END`; they are skipped by the serializer rather
than excluded by the parser. -/
theorem parse_always_stores_markers (lines : List String) :
    "BEGIN" ∈ keysOf (parse_vcard ("BEGIN:VCARD" :: lines ++ ["END:VCARD"])) ∧
    "END" ∈ keysOf (parse_vcard ("BEGIN:VCARD" :: lines ++ ["END:VCARD"])) := by
  have hstep : preprocess_vcard_lines
      ("BEGIN:VCARD" :: (lines ++ ["END:VCARD"])) =
      preprocessAux "BEGIN:VCARD" (lines ++ ["END:VCARD"]) := by
    rw [preprocess_vcard_lines, preprocessAux,
      show pyRstrip "BEGIN:VCARD" = "BEGIN:VCARD" from by decide,
      if_neg (show ¬ startsFold "BEGIN:VCARD" from by decide),
      if_neg (show ¬ ("" : String) ≠ "" from by simp)]
  constructor
  · rw [parse_vcard, List.cons_append, hstep]
    obtain ⟨t, rest, hh⟩ :=
      preprocessAux_exists_head (lines ++ ["END:VCARD"]) "BEGIN:VCARD"
        (by decide)
    rw [hh, List.foldl_cons]
    obtain ⟨pv, hpl⟩ := parseLine_begin t
    apply mem_keys_parseFold_mono
    rw [parseFoldStep, hpl]
    exact mem_keys_insertProp_self _ _ _
  · rw [parse_vcard, List.cons_append, hstep]
    exact mem_keys_parseFold_of_mem _ _ "END:VCARD" "END" ⟨"VCARD", []⟩
      (preprocessAux_mem_last "END:VCARD" (by decide) (by decide)
        (by decide) lines "BEGIN:VCARD")
      (by decide)

/-- A list ending in a non-whitespace character is `rstrip`-invariant. -/
theorem pyRstripL_append_last (l : List Char) (c : Char)
    (hc : ¬ isPySpace c) : pyRstripL (l ++ [c]) = l ++ [c] := by
  unfold pyRstripL
  rw [List.reverse_append]
  simp only [List.reverse_cons, List.reverse_nil, List.nil_append,
    List.singleton_append]
  rw [List.dropWhile_cons_of_neg (by simpa using hc)]
  simp

/-- The head of what `dropWhile isPySpace` returns is not whitespace. -/
theorem not_isPySpace_of_dropWhile_cons (l : List Char) (c : Char)
    (rest : List Char) (h : l.dropWhile isPySpace = c :: rest) :
    ¬ isPySpace c := by
  have hlen : 0 < (l.dropWhile isPySpace).length := by rw [h]; simp
  have hnot := List.dropWhile_get_zero_not (p := isPySpace) l hlen
  simp [h] at hnot
  simpa using hnot

/-- `rstrip` output never ends in whitespace. -/
theorem pyRstripL_no_trailing (l : List Char) :
    pyRstripL l = [] ∨
      ∃ init c, pyRstripL l = init ++ [c] ∧ ¬ isPySpace c := by
  unfold pyRstripL
  cases hd : l.reverse.dropWhile isPySpace with
  | nil => left; simp
  | cons c rest =>
    right
    exact ⟨rest.reverse, c, by simp [hd],
      not_isPySpace_of_dropWhile_cons _ _ _ hd⟩

/-- A `strip`-invariant string is empty or ends in a non-whitespace
character. -/
theorem stripInv_last (v : String) (hs : pyStrip v = v) :
    v.data = [] ∨ ∃ init c, v.data = init ++ [c] ∧ ¬ isPySpace c := by
  have hd : v.data = pyRstripL (v.data.dropWhile isPySpace) :=
    congrArg String.data hs.symm
  rcases pyRstripL_no_trailing (v.data.dropWhile isPySpace) with
    h | ⟨init, c, he, hc⟩
  · left; rw [hd, h]
  · right; exact ⟨init, c, by rw [hd, he], hc⟩

/-- A serialized property line — anything of the shape
`pre ++ ":" ++ value` with a `strip`-invariant value — is
`rstrip`-invariant. -/
theorem pyRstrip_colon_line (pre value : String) (hs : pyStrip value = value) :
    pyRstrip (pre ++ ":" ++ value) = pre ++ ":" ++ value := by
  have hdata : (pre ++ ":" ++ value).data =
      (pre.data ++ [':']) ++ value.data := rfl
  apply String.ext
  show pyRstripL (pre ++ ":" ++ value).data = _
  rcases stripInv_last value hs with h | ⟨init, c, he, hc⟩
  · rw [hdata, h, List.append_nil, pyRstripL_append_last _ _ (by decide)]
  · rw [hdata, he,
      show (pre.data ++ [':']) ++ (init ++ [c]) =
        ((pre.data ++ [':']) ++ init) ++ [c] from by
          rw [List.append_assoc (pre.data ++ [':'])],
      pyRstripL_append_last _ _ hc]

/-- The folding loop leaves alone any list of lines that are
`rstrip`-invariant, nonempty and not continuations. -/
theorem preprocessAux_id (ls : List String)
    (h : ∀ l ∈ ls, pyRstrip l = l ∧ ¬ startsFold l ∧ l ≠ "") :
    ∀ cur, preprocessAux cur ls = (if cur = "" then ls else cur :: ls) := by
  induction ls with
  | nil =>
    intro cur
    by_cases hc : cur = "" <;> simp [preprocessAux, hc]
  | cons l ls ih =>
    intro cur
    obtain ⟨hr, hf, hne⟩ := h l (by simp)
    rw [preprocessAux, hr, if_neg hf]
    have ihr := ih (fun x hx => h x (by simp [hx]))
    by_cases hc : cur = ""
    · rw [if_neg (by simpa using hc), ihr, if_neg hne, if_pos hc]
    · rw [if_pos hc, ihr, if_neg hne, if_neg hc]

/-- `preprocess_vcard_lines` is the identity on canonical line lists. -/
theorem preprocess_id (ls : List String)
    (h : ∀ l ∈ ls, pyRstrip l = l ∧ ¬ startsFold l ∧ l ≠ "") :
    preprocess_vcard_lines ls = ls := by
  rw [preprocess_vcard_lines, preprocessAux_id ls h "", if_pos rfl]

/-- Character-level view of gluing a `';'` between two strings. -/
theorem data_semi (a b : String) :
    (a ++ ";" ++ b).data = a.data ++ ';' :: b.data := by
  show (a.data ++ (";" : String).data) ++ b.data = _
  rw [show (";" : String).data = [';'] from by decide, List.append_assoc]
  rfl

/-- Character-level view of gluing a `':'` between two strings. -/
theorem data_colon (a b : String) :
    (a ++ ":" ++ b).data = a.data ++ ':' :: b.data := by
  show (a.data ++ (":" : String).data) ++ b.data = _
  rw [show (":" : String).data = [':'] from by decide, List.append_assoc]
  rfl

/-- A parameter join is empty only for `[]` or `[""]`. -/
theorem pyJoin_ne_empty : ∀ ps : List String, ps ≠ [] → ps ≠ [""] →
    pyJoin ";" ps ≠ ""
  | [], h, _ => absurd rfl h
  | [x], _, h2 => by
    intro he
    rw [pyJoin] at he
    exact h2 (by rw [he])
  | x :: y :: xs, _, _ => by
    intro he
    rw [pyJoin] at he
    have hd := congrArg String.data he
    rw [data_semi] at hd
    simp at hd

/-- Joining colon-free tokens with `';'` yields a colon-free string. -/
theorem no_colon_pyJoin : ∀ ps : List String,
    (∀ p ∈ ps, ¬ ':' ∈ p.data) → ¬ ':' ∈ (pyJoin ";" ps).data
  | [], _ => by simp [pyJoin]
  | [x], h => by
    rw [pyJoin]
    exact h x (by simp)
  | x :: y :: xs, h => by
    rw [pyJoin]
    intro hmem
    rw [data_semi] at hmem
    rcases List.mem_append.mp hmem with hx | hx
    · exact h x (by simp) hx
    · rcases List.mem_cons.mp hx with hx | hx
      · cases hx
      · exact no_colon_pyJoin (y :: xs) (fun p hp => h p (by simp [hp])) hx

/-- Splitting a separator-free list leaves it whole. -/
theorem splitAllL_no_sep (sep : Char) : ∀ l : List Char, ¬ sep ∈ l →
    splitAllL sep l = [l]
  | [], _ => rfl
  | c :: cs, h => by
    have hcs : ¬ c = sep := fun he => h (by simp [he])
    simp only [splitAllL]
    rw [splitAllL_no_sep sep cs (fun hm => h (by simp [hm])), if_neg hcs]

/-- Splitting past a separator-free prefix. -/
theorem splitAllL_prefix (sep : Char) : ∀ (pre post : List Char),
    ¬ sep ∈ pre →
      splitAllL sep (pre ++ sep :: post) = pre :: splitAllL sep post
  | [], post, _ => by
    simp [splitAllL]
  | c :: pre, post, h => by
    have hcs : ¬ c = sep := fun he => h (by simp [he])
    simp only [List.cons_append, splitAllL, List.append_eq]
    rw [ splitAllL_prefix sep pre post (fun hm => h (by simp [hm])),
      if_neg hcs]

/-- Splitting a `';'`-join of `';'`-free tokens recovers the tokens. -/
theorem splitAllL_pyJoin : ∀ ps : List String, ps ≠ [] →
    (∀ p ∈ ps, ¬ ';' ∈ p.data) →
      splitAllL ';' (pyJoin ";" ps).data = ps.map String.data
  | [], h, _ => absurd rfl h
  | [x], _, h => by
    rw [pyJoin]
    exact splitAllL_no_sep ';' x.data (h x (by simp))
  | x :: y :: xs, _, h => by
    rw [pyJoin, data_semi,
      splitAllL_prefix ';' _ _ (h x (by simp)),
      splitAllL_pyJoin (y :: xs) (by simp) (fun p hp => h p (by simp [hp]))]
    rfl

/-- Rebuilding strings from their character lists is the identity. -/
theorem map_mk_map_data (ps : List String) :
    (ps.map String.data).map (fun l => (⟨l⟩ : String)) = ps := by
  rw [List.map_map]
  exact List.map_id ps

/-- Parsing a serialized property line recovers the property name, the
parameter tokens and the value, for canonical names and values. -/
theorem parseLine_format (k : String) (v : PropertyValue)
    (hk : wfKeyName k) (hv : wfPropValue v) :
    parseLine (format_vcard_line k v) = some (k, v) := by
  simp only [wfKeyName, Bool.and_eq_true, decide_eq_true_eq] at hk
  obtain ⟨⟨⟨⟨-, -⟩, hkc⟩, hks⟩, -⟩ := hk
  simp only [wfPropValue, Bool.and_eq_true, decide_eq_true_eq,
    List.all_eq_true, ne_eq] at hv
  obtain ⟨⟨hstrip, hppp⟩, hpar⟩ := hv
  rw [format_vcard_line]
  by_cases hps : v.params = []
  · simp only [hps, ne_eq, not_true_eq_false, if_false, ite_false,
      reduceIte]
    rw [parseLine, splitFirstColon, data_colon,
      splitFirstL_prefix ':' _ _ hkc]
    simp only [Option.map_some']
    simp only [pySplit]
    rw [show (⟨k.data⟩ : String).data = k.data from rfl,
      splitAllL_no_sep ';' k.data hks]
    simp only [List.map_cons, List.map_nil, List.tail_cons]
    have hval : pyStrip ⟨v.value.data⟩ = v.value := hstrip
    obtain ⟨vv, vp⟩ := v
    simp only at hps hval
    simp [hps, hval]
  · have hjne : pyJoin ";" v.params ≠ "" := pyJoin_ne_empty _ hps hppp
    simp only [hps, ne_eq, not_false_eq_true, if_true, hjne, ite_true,
      reduceIte]
    have hJc : ¬ ':' ∈ (pyJoin ";" v.params).data :=
      no_colon_pyJoin _ (fun p hp => (hpar p hp).1)
    rw [parseLine, splitFirstColon, data_colon, data_semi,
      splitFirstL_prefix ':' _ _ (by
        intro hmem
        rcases List.mem_append.mp hmem with hx | hx
        · exact hkc hx
        · rcases List.mem_cons.mp hx with hx | hx
          · cases hx
          · exact hJc hx)]
    simp only [Option.map_some']
    simp only [pySplit]
    rw [ splitAllL_prefix ';' _ _ hks,
      splitAllL_pyJoin v.params hps (fun p hp => (hpar p hp).2)]
    simp only [List.map_cons, List.tail_cons, map_mk_map_data]
    have hval : pyStrip ⟨v.value.data⟩ = v.value := hstrip
    obtain ⟨vv, vp⟩ := v
    simp only at hval
    simp [hval]

/-- A serialized property line is never empty. -/
theorem colon_line_ne_empty (pre value : String) : pre ++ ":" ++ value ≠ "" := by
  intro he
  have hd := congrArg String.data he
  rw [data_colon] at hd
  simp at hd

/-- A serialized property line never begins with a fold character when its
prefix part does not. -/
theorem not_startsFold_colon_line (pre value : String)
    (h : ∀ c cs, pre.data = c :: cs → ¬ (c = ' ' ∨ c = '\t')) :
    ¬ startsFold (pre ++ ":" ++ value) := by
  have hdata := data_colon pre value
  simp only [startsFold, hdata]
  cases hd : pre.data with
  | nil => simp
  | cons c cs =>
    simp only [List.cons_append]
    have := h c cs hd
    simp only [Bool.or_eq_true, decide_eq_true_eq]
    exact fun hc => this hc

/-- The serialized line of a canonical property is `rstrip`-invariant, not a
continuation, and nonempty. -/
theorem format_line_good (k : String) (v : PropertyValue)
    (hk : wfKeyName k) (hv : wfPropValue v) :
    pyRstrip (format_vcard_line k v) = format_vcard_line k v ∧
      ¬ startsFold (format_vcard_line k v) ∧ format_vcard_line k v ≠ "" := by
  have hstrip : pyStrip v.value = v.value := by
    simp only [wfPropValue, Bool.and_eq_true, decide_eq_true_eq] at hv
    exact hv.1.1
  have hkhead : ∀ c cs, k.data = c :: cs → ¬ (c = ' ' ∨ c = '\t') := by
    simp only [wfKeyName, Bool.and_eq_true, decide_eq_true_eq] at hk
    intro c cs hd
    have := hk.2
    rw [hd] at this
    simpa using this
  rw [format_vcard_line]
  by_cases hps : v.params = []
  · simp only [hps, ne_eq, not_true_eq_false, if_false, ite_false, reduceIte]
    exact ⟨pyRstrip_colon_line k v.value hstrip,
      not_startsFold_colon_line k v.value hkhead,
      colon_line_ne_empty k v.value⟩
  · by_cases hj : pyJoin ";" v.params = ""
    · simp only [hps, ne_eq, not_false_eq_true, if_true, hj,
        not_true_eq_false, if_false, ite_false, ite_true, reduceIte]
      exact ⟨pyRstrip_colon_line k v.value hstrip,
        not_startsFold_colon_line k v.value hkhead,
        colon_line_ne_empty k v.value⟩
    · simp only [hps, ne_eq, not_false_eq_true, if_true, hj, ite_true,
        reduceIte]
      refine ⟨pyRstrip_colon_line _ v.value hstrip,
        not_startsFold_colon_line _ v.value ?_,
        colon_line_ne_empty _ v.value⟩
      intro c cs hd
      rw [data_semi] at hd
      cases hk2 : k.data with
      | nil =>
        rw [hk2, List.nil_append] at hd
        injection hd with h1 _
        subst h1
        simp
      | cons c0 cs0 =>
        rw [hk2, List.cons_append] at hd
        injection hd with h1 _
        subst h1
        exact hkhead c0 cs0 hk2

/-- One parse-loop step on a line that parses successfully. -/
theorem parseFoldStep_some (acc : Record) (l : String) (k : String)
    (pv : PropertyValue) (h : parseLine l = some (k, pv)) :
    parseFoldStep acc l = insertProp acc k pv := by
  rw [parseFoldStep, h]

/-- Inserting a fresh property name appends a single-instance binding. -/
theorem insertProp_not_mem (acc : Record) (k : String) (pv : PropertyValue)
    (h : ¬ k ∈ keysOf acc) : insertProp acc k pv = acc ++ [(k, .one pv)] := by
  induction acc with
  | nil => rfl
  | cons kv rest ih =>
    obtain ⟨k2, e⟩ := kv
    have hk2 : ¬ k2 = k := fun he => h (by simp [keysOf, he])
    simp only [insertProp, if_neg hk2, List.cons_append]
    rw [ih (fun hm => h (by simp [keysOf] at hm ⊢; exact Or.inr hm))]

/-- Inserting an already-present property name escalates the unique binding
carrying it, in place. -/
theorem insertProp_at (acc tail : Record) (k : String) (e : PropEntry)
    (pv : PropertyValue) (h : ¬ k ∈ keysOf acc) :
    insertProp (acc ++ (k, e) :: tail) k pv =
      acc ++ (k, match e with
                 | .one p => .many [p, pv]
                 | .many ps => .many (ps ++ [pv])) :: tail := by
  induction acc with
  | nil => simp [insertProp]
  | cons kv rest ih =>
    obtain ⟨k2, e2⟩ := kv
    have hk2 : ¬ k2 = k := fun he => h (by simp [keysOf, he])
    simp only [List.cons_append, insertProp, if_neg hk2, List.append_eq]
    rw [ih (fun hm => h (by simp [keysOf] at hm ⊢; exact Or.inr hm))]

/-- Folding the remaining instances of a property onto its list binding. -/
theorem fold_more_instances (k : String) (hk : wfKeyName k) :
    ∀ (rest : List PropertyValue) (acc : Record) (ps : List PropertyValue),
      ¬ k ∈ keysOf acc → (∀ v ∈ rest, wfPropValue v) →
      (rest.map (format_vcard_line k)).foldl parseFoldStep
        (acc ++ [(k, .many ps)]) = acc ++ [(k, .many (ps ++ rest))] := by
  intro rest
  induction rest with
  | nil => intro acc ps _ _; simp
  | cons r rest ih =>
    intro acc ps hacc hwf
    rw [List.map_cons, List.foldl_cons,
      parseFoldStep_some _ _ _ _ (parseLine_format k r hk (hwf r (by simp))),
      insertProp_at acc [] k (.many ps) r hacc]
    have := ih acc (ps ++ [r]) hacc (fun v hv => hwf v (by simp [hv]))
    rw [this, List.append_assoc]
    simp

/-- Folding the serialized lines of one canonical property onto a record not
yet containing it appends exactly that property. -/
theorem fold_entryLines (acc : Record) (k : String) (e : PropEntry)
    (hacc : ¬ k ∈ keysOf acc) (hk : wfKeyName k) (he : wfEntry e) :
    (entryLines (k, e)).foldl parseFoldStep acc = acc ++ [(k, e)] := by
  cases e with
  | one v =>
    rw [entryLines, List.foldl_cons, List.foldl_nil,
      parseFoldStep_some _ _ _ _
        (parseLine_format k v hk (by simpa [wfEntry] using he)),
      insertProp_not_mem acc k v hacc]
  | many vs =>
    simp only [wfEntry, Bool.and_eq_true, decide_eq_true_eq,
      List.all_eq_true] at he
    obtain ⟨hlen, hwf⟩ := he
    match vs, hlen with
    | v0 :: v1 :: rest, _ =>
      rw [entryLines]
      simp only [List.map_cons, List.foldl_cons]
      rw [parseFoldStep_some _ _ _ _
        (parseLine_format k v0 hk (hwf v0 (by simp))),
        insertProp_not_mem acc k v0 hacc]
      rw [parseFoldStep_some _ _ _ _
        (parseLine_format k v1 hk (hwf v1 (by simp))),
        insertProp_at acc [] k (.one v0) v1 hacc]
      rw [fold_more_instances k hk rest acc [v0, v1] hacc
        (fun v hv => hwf v (by simp [hv]))]
      rfl

/-- Folding the serialized lines of a canonical record interior onto a
record with disjoint keys appends the whole interior. -/
theorem fold_flatMap_entryLines :
    ∀ (mid : Record) (acc : Record),
      (∀ kv ∈ mid, wfKeyName kv.1 ∧ wfEntry kv.2) →
      (keysOf mid).Nodup →
      (∀ kk, kk ∈ keysOf mid → ¬ kk ∈ keysOf acc) →
      (mid.flatMap entryLines).foldl parseFoldStep acc = acc ++ mid := by
  intro mid
  induction mid with
  | nil => intro acc _ _ _; simp
  | cons kv rest ih =>
    intro acc hwf hnd hdis
    obtain ⟨k, e⟩ := kv
    rw [List.flatMap_cons, List.foldl_append]
    rw [fold_entryLines acc k e (hdis k (by simp [keysOf]))
      (hwf (k, e) (by simp)).1 (hwf (k, e) (by simp)).2]
    simp only [keysOf, List.map_cons, List.nodup_cons] at hnd
    rw [ih (acc ++ [(k, e)]) (fun kv2 hm => hwf kv2 (by simp [hm]))
      hnd.2 ?_]
    · simp
    · intro kk hkk hmem
      have hkk2 : kk ∈ keysOf ((k, e) :: rest) := by
        simp only [keysOf, List.map_cons, List.mem_cons]
        exact Or.inr hkk
      simp only [keysOf, List.map_append, List.map_cons, List.map_nil,
        List.mem_append, List.mem_cons] at hmem
      rcases hmem with hmem | hmem
      · exact hdis kk hkk2 hmem
      · rcases hmem with rfl | hmem
        · exact hnd.1 (by simpa [keysOf] using hkk)
        · cases hmem

/-- The serializer's filter drops exactly the two sentinel entries of a
canonical sandwich record. -/
theorem sandwich_filter (mid : Record)
    (h : ∀ kv ∈ mid, wfKeyName kv.1) :
    (sandwich mid).filter (fun kv => kv.1 ≠ "BEGIN" && kv.1 ≠ "END") =
      mid := by
  have hmid : mid.filter (fun kv => kv.1 ≠ "BEGIN" && kv.1 ≠ "END") = mid := by
    apply List.filter_eq_self.mpr
    intro kv hm
    have := h kv hm
    simp only [wfKeyName, Bool.and_eq_true, decide_eq_true_eq] at this
    simp [this.1.1.1.1, this.1.1.1.2]
  rw [sandwich]
  simp [hmid]
  intro a b hm
  have := h (a, b) hm
  simp only [wfKeyName, Bool.and_eq_true, decide_eq_true_eq] at this
  exact ⟨this.1.1.1.1, this.1.1.1.2⟩

/-- C2 (amended): for every record of the parser's canonical image — the
`BEGIN`/`END` sentinel entries at the two ends around an interior with
pairwise-distinct canonical keys, canonical parameter lists (never the single
empty token) and `strip`-invariant values, multi-instance entries holding at
least two instances — parsing the serialization returns the record itself,
and re-serializing the parse of such a serialized block reproduces the block
verbatim. -/
theorem roundtrip_on_wellformed (mid : Record) (h : wfMid mid) :
    parse_vcard (vcard_to_string_lines (sandwich mid)) = sandwich mid ∧
    vcard_to_string_lines (parse_vcard (vcard_to_string_lines
      (sandwich mid))) = vcard_to_string_lines (sandwich mid) := by
  simp only [wfMid, Bool.and_eq_true, decide_eq_true_eq,
    List.all_eq_true] at h
  obtain ⟨hnd, hall⟩ := h
  have hwf : ∀ kv ∈ mid, wfKeyName kv.1 ∧ wfEntry kv.2 := by
    intro kv hm
    have := hall kv hm
    simpa [Bool.and_eq_true] using this
  have hlines : vcard_to_string_lines (sandwich mid) =
      "BEGIN:VCARD" :: (mid.flatMap entryLines ++ ["END:VCARD"]) := by
    rw [vcard_to_string_lines,
      sandwich_filter mid (fun kv hm => (hwf kv hm).1)]
  have hgood : ∀ l ∈ vcard_to_string_lines (sandwich mid),
      pyRstrip l = l ∧ ¬ startsFold l ∧ l ≠ "" := by
    rw [hlines]
    intro l hl
    rcases List.mem_cons.mp hl with rfl | hl
    · exact ⟨by decide, by decide, by decide⟩
    rcases List.mem_append.mp hl with hl | hl
    · obtain ⟨kv, hkv, hml⟩ := List.mem_flatMap.mp hl
      obtain ⟨k, e⟩ := kv
      obtain ⟨hk, he⟩ := hwf (k, e) hkv
      cases e with
      | one v =>
        rw [entryLines] at hml
        simp only [List.mem_singleton] at hml
        subst hml
        exact format_line_good k v hk (by simpa [wfEntry] using he)
      | many vs =>
        rw [entryLines] at hml
        obtain ⟨v, hv, rfl⟩ := List.mem_map.mp hml
        simp only [wfEntry, Bool.and_eq_true, List.all_eq_true] at he
        exact format_line_good k v hk (he.2 v hv)
    · simp only [List.mem_singleton] at hl
      subst hl
      exact ⟨by decide, by decide, by decide⟩
  have hparse : parse_vcard (vcard_to_string_lines (sandwich mid)) =
      sandwich mid := by
    rw [parse_vcard, preprocess_id _ hgood, hlines, List.foldl_cons,
      show parseFoldStep [] "BEGIN:VCARD" =
        [("BEGIN", PropEntry.one ⟨"VCARD", []⟩)] from by decide,
      List.foldl_append]
    rw [fold_flatMap_entryLines mid _ hwf hnd ?hdis]
    case hdis =>
      intro kk hkk hmem
      simp only [keysOf, List.map_cons, List.map_nil, List.mem_cons] at hmem
      rcases hmem with rfl | hmem
      · obtain ⟨kv, hkv, he⟩ := List.mem_map.mp hkk
        have := (hwf kv hkv).1
        simp only [wfKeyName, Bool.and_eq_true, decide_eq_true_eq] at this
        exact this.1.1.1.1 he
      · cases hmem
    rw [List.foldl_cons, List.foldl_nil,
      parseFoldStep_some _ _ _ _
        (show parseLine "END:VCARD" = some ("END", ⟨"VCARD", []⟩) from
          by decide),
      insertProp_not_mem _ _ _ ?hend]
    case hend =>
      intro hmem
      simp only [keysOf, List.map_append, List.map_cons, List.map_nil,
        List.mem_append, List.mem_cons] at hmem
      rcases hmem with hmem | hmem
      · rcases hmem with hmem | hmem
        · exact absurd hmem (by decide)
        · cases hmem
      · obtain ⟨kv, hkv, he⟩ := List.mem_map.mp hmem
        have := (hwf kv hkv).1
        simp only [wfKeyName, Bool.and_eq_true, decide_eq_true_eq] at this
        exact this.1.1.1.2 he
    rw [sandwich]
    simp
  exact ⟨hparse, by rw [hparse]⟩

/-- Witness for C2 at a concrete canonical interior (a single name and a
two-instance phone property). -/
theorem roundtrip_on_wellformed_witness :
    wfMid [("FN", PropEntry.one ⟨"John Doe", []⟩),
      ("TEL", PropEntry.many [⟨"555-1111", ["CELL"]⟩, ⟨"555-2222", []⟩])] =
      true ∧
    parse_vcard (vcard_to_string_lines (sandwich
      [("FN", PropEntry.one ⟨"John Doe", []⟩),
       ("TEL", PropEntry.many [⟨"555-1111", ["CELL"]⟩, ⟨"555-2222", []⟩])])) =
      sandwich [("FN", PropEntry.one ⟨"John Doe", []⟩),
        ("TEL", PropEntry.many [⟨"555-1111", ["CELL"]⟩, ⟨"555-2222", []⟩])] :=
  ⟨by decide,
    (roundtrip_on_wellformed
      [("FN", PropEntry.one ⟨"John Doe", []⟩),
       ("TEL", PropEntry.many [⟨"555-1111", ["CELL"]⟩, ⟨"555-2222", []⟩])]
      (by decide)).1⟩

/-- Keys and lookups: a missing key looks up to `none`. -/
theorem alookup_eq_none_iff {α : Type} (k : String) :
    ∀ m : List (String × α), alookup k m = none ↔ ¬ k ∈ keysOf m := by
  intro m
  induction m with
  | nil => simp [alookup, keysOf]
  | cons kv rest ih =>
    obtain ⟨k2, v⟩ := kv
    by_cases hk : k2 = k
    · subst hk
      simp [alookup, keysOf]
    · rw [alookup_cons, if_neg hk]
      simp only [keysOf, List.map_cons, List.mem_cons]
      rw [ih]
      constructor
      · rintro h (rfl | hm)
        · exact hk rfl
        · exact h (by simpa [keysOf] using hm)
      · intro h hm
        exact h (Or.inr (by simpa [keysOf] using hm))

/-- A successful lookup is a membership. -/
theorem mem_of_alookup {α : Type} (k : String) (v : α) :
    ∀ m : List (String × α), alookup k m = some v → (k, v) ∈ m := by
  intro m
  induction m with
  | nil => intro h; cases h
  | cons kv rest ih =>
    obtain ⟨k2, w⟩ := kv
    by_cases hk : k2 = k
    · subst hk
      rw [alookup_cons, if_pos rfl]
      intro h
      injection h with h
      subst h
      simp
    · rw [alookup_cons, if_neg hk]
      intro h
      exact List.mem_cons_of_mem _ (ih h)

/-- With pairwise-distinct keys, membership determines the lookup. -/
theorem alookup_of_mem_nodup {α : Type} (k : String) (v : α) :
    ∀ m : List (String × α), (keysOf m).Nodup → (k, v) ∈ m →
      alookup k m = some v := by
  intro m
  induction m with
  | nil => intro _ h; cases h
  | cons kv rest ih =>
    intro hnd hm
    obtain ⟨k2, w⟩ := kv
    simp only [keysOf, List.map_cons, List.nodup_cons] at hnd
    rcases List.mem_cons.mp hm with he | hm2
    · injection he with h1 h2
      subst h1; subst h2
      rw [alookup_cons, if_pos rfl]
    · have hk : ¬ k2 = k := by
        rintro rfl
        exact hnd.1 (by
          simpa [keysOf] using List.mem_map_of_mem Prod.fst hm2)
      rw [alookup_cons, if_neg hk]
      exact ih hnd.2 hm2

/-- Lookups commute with mapping over the stored values. -/
theorem alookup_map {α β : Type} (f : α → β) (k : String) :
    ∀ m : List (String × α),
      alookup k (m.map (fun kv => (kv.1, f kv.2))) = (alookup k m).map f := by
  intro m
  induction m with
  | nil => rfl
  | cons kv rest ih =>
    obtain ⟨k2, v⟩ := kv
    by_cases hk : k2 = k
    · subst hk
      simp [alookup_cons]
    · simp only [List.map_cons, alookup_cons, if_neg hk]
      exact ih

/-- A successful lookup survives appending. -/
theorem alookup_append_some {α : Type} (k : String) (v : α)
    (p : List (String × α)) :
    ∀ m : List (String × α), alookup k m = some v →
      alookup k (m ++ p) = some v := by
  intro m
  induction m with
  | nil => intro h; cases h
  | cons kv rest ih =>
    obtain ⟨k2, w⟩ := kv
    by_cases hk : k2 = k
    · subst hk
      rw [alookup_cons, if_pos rfl]
      intro h
      rw [List.cons_append, alookup_cons, if_pos rfl]
      exact h
    · rw [alookup_cons, if_neg hk]
      intro h
      rw [List.cons_append, alookup_cons, if_neg hk]
      exact ih h

/-- A failed lookup defers to the appended part. -/
theorem alookup_append_none {α : Type} (k : String)
    (p : List (String × α)) :
    ∀ m : List (String × α), alookup k m = none →
      alookup k (m ++ p) = alookup k p := by
  intro m
  induction m with
  | nil => intro _; rfl
  | cons kv rest ih =>
    obtain ⟨k2, w⟩ := kv
    by_cases hk : k2 = k
    · subst hk
      rw [alookup_cons, if_pos rfl]
      intro h; cases h
    · rw [alookup_cons, if_neg hk]
      intro h
      rw [List.cons_append, alookup_cons, if_neg hk]
      exact ih h

/-- Filtering away another key does not change a lookup. -/
theorem alookup_filter_ne {α : Type} (k k2 : String) (hk : k ≠ k2) :
    ∀ m : List (String × α),
      alookup k (m.filter (fun kv => kv.1 ≠ k2)) = alookup k m := by
  intro m
  induction m with
  | nil => rfl
  | cons kv rest ih =>
    obtain ⟨k3, v⟩ := kv
    rw [List.filter_cons]
    by_cases h3 : k3 = k2
    · subst h3
      rw [if_neg (by simp)]
      rw [ih, alookup_cons, if_neg (fun he => hk he.symm)]
    · rw [if_pos (by simp [h3])]
      by_cases hk3 : k3 = k
      · subst hk3
        rw [alookup_cons, if_pos rfl, alookup_cons, if_pos rfl]
      · rw [alookup_cons, if_neg hk3, alookup_cons, if_neg hk3, ih]

/-- With pairwise-distinct keys, filtering to one present key isolates its
binding. -/
theorem filter_key_eq {α : Type} (k : String) (v : α) :
    ∀ m : List (String × α), (keysOf m).Nodup → alookup k m = some v →
      m.filter (fun kv => kv.1 = k) = [(k, v)] := by
  intro m
  induction m with
  | nil => intro _ h; cases h
  | cons kv rest ih =>
    intro hnd hl
    obtain ⟨k2, w⟩ := kv
    simp only [keysOf, List.map_cons, List.nodup_cons] at hnd
    rw [List.filter_cons]
    by_cases hk : k2 = k
    · subst hk
      rw [alookup_cons, if_pos rfl] at hl
      injection hl with hl
      subst hl
      rw [if_pos (by simp)]
      have : rest.filter (fun kv => kv.1 = k2) = [] := by
        rw [List.filter_eq_nil_iff]
        intro kv hm
        simp only [decide_eq_true_eq]
        rintro rfl
        exact hnd.1 (by
          simpa [keysOf] using List.mem_map_of_mem Prod.fst hm)
      rw [this]
    · rw [alookup_cons, if_neg hk] at hl
      rw [if_neg (by simp [hk])]
      exact ih hnd.2 hl

/-- Python `==` on records is reflexive. -/
theorem recEqB_refl (x : Record) : recEqB x x = true := by
  simp [recEqB, List.all_eq_true]

/-- Python-equal records agree on their `FN` binding. -/
theorem alookup_fn_eq_of_recEqB (x y : Record) (h : recEqB x y = true) :
    alookup "FN" x = alookup "FN" y := by
  simp only [recEqB, Bool.and_eq_true, List.all_eq_true,
    decide_eq_true_eq] at h
  by_cases hx : "FN" ∈ keysOf x
  · exact h.1 "FN" (by simpa [keysOf] using hx)
  · by_cases hy : "FN" ∈ keysOf y
    · exact (h.2 "FN" (by simpa [keysOf] using hy)).symm
    · rw [(alookup_eq_none_iff "FN" x).mpr hx,
        (alookup_eq_none_iff "FN" y).mpr hy]

/-- Python-equal records produce the same grouping key. -/
theorem nameKey_eq_of_recEqB (x y : Record) (h : recEqB x y = true) :
    nameKey x = nameKey y := by
  have hfn := alookup_fn_eq_of_recEqB x y h
  rw [nameKey, nameKey, extract_name, extract_name, hfn]

/-- Appending to the list under a key commutes with mapping the stored
lists. -/
theorem dictListAppend_map {α β : Type} (f : α → β) (k : String) (v : α) :
    ∀ m : List (String × List α),
      dictListAppend (m.map (fun kl => (kl.1, kl.2.map f))) k (f v) =
        (dictListAppend m k v).map (fun kl => (kl.1, kl.2.map f)) := by
  intro m
  induction m with
  | nil => rfl
  | cons kl rest ih =>
    obtain ⟨k2, l⟩ := kl
    by_cases hk : k2 = k
    · subst hk
      simp [dictListAppend]
    · simp only [List.map_cons, dictListAppend, if_neg hk]
      rw [ih]

/-- One tagged scan step projects to one untagged scan step. -/
theorem scanStepT_proj (st : ScanStateT) (i : Nat) (r : Record) :
    scanStep (projT st) r = (scanStepT st (i, r)).map projT := by
  rw [scanStep, scanStepT]
  cases hk : nameKey r with
  | none => rfl
  | some key =>
    simp only
    rw [show (projT st).seen = st.seen.map (fun kv => (kv.1, kv.2.2))
      from rfl, alookup_map]
    cases hs : alookup key st.seen with
    | none =>
      simp [projT, ScanState.mk.injEq]
    | some seedT =>
      simp only [Option.map_none', Option.map_some']
      rw [show (projT st).duplicates =
        st.duplicates.map (fun kl => (kl.1, kl.2.map Prod.snd)) from rfl,
        alookup_map]
      cases hd : alookup key st.duplicates with
      | none =>
        simp only [Option.map_none', Option.map_some', projT,
          ScanState.mk.injEq, and_true, true_and]
        rw [show st.duplicates.map (fun kl => (kl.1, kl.2.map Prod.snd)) ++
            [(key, [seedT.2])] =
          (st.duplicates ++ [(key, [seedT])]).map
            (fun kl => (kl.1, kl.2.map Prod.snd)) from by simp]
        have hd2 := dictListAppend_map Prod.snd key (i, r)
          (st.duplicates ++ [(key, [seedT])])
        dsimp only at hd2
        rw [hd2]
      | some g =>
        simp only [Option.map_none', Option.map_some', projT,
          ScanState.mk.injEq, and_true, true_and]
        have hd2 := dictListAppend_map Prod.snd key (i, r) st.duplicates
        dsimp only at hd2
        rw [hd2]

/-- The untagged scan is the projection of the tagged scan. -/
theorem scanFoldT_proj :
    ∀ (tl : List (Nat × Record)) (ost : Option ScanStateT),
      (tl.map Prod.snd).foldl
        (fun ost vc => ost.bind (fun st => scanStep st vc))
        (ost.map projT) =
      (tl.foldl (fun ost iv => ost.bind (fun st => scanStepT st iv))
        ost).map projT := by
  intro tl
  induction tl with
  | nil => intro ost; rfl
  | cons iv tl ih =>
    intro ost
    obtain ⟨i, r⟩ := iv
    rw [List.map_cons, List.foldl_cons, List.foldl_cons]
    have hstep : (ost.map projT).bind (fun st => scanStep st r) =
        (ost.bind (fun st => scanStepT st (i, r))).map projT := by
      cases ost with
      | none => rfl
      | some st =>
        show scanStep (projT st) r = (scanStepT st (i, r)).map projT
        exact scanStepT_proj st i r
    rw [hstep]
    exact ih _

/-- The code's scan state is the tag-forgetting projection of the tagged
scan state. -/
theorem scanAll_eq_proj (vcards : List Record) :
    scanAll vcards = (scanAllT vcards.enum).map projT := by
  have h := scanFoldT_proj vcards.enum (some ⟨[], [], []⟩)
  rw [List.enum_map_snd] at h
  rw [scanAll, scanAllT]
  exact h

/-- Lookup commutes with a key-aware value map. -/
theorem alookup_map_pair {α β : Type} (f : String → α → β) (k : String) :
    ∀ m : List (String × α),
      alookup k (m.map (fun kl => (kl.1, f kl.1 kl.2))) =
        (alookup k m).map (f k) := by
  intro m
  induction m with
  | nil => rfl
  | cons kv rest ih =>
    obtain ⟨k2, v⟩ := kv
    by_cases hk : k2 = k
    · subst hk
      simp [alookup_cons]
    · simp only [List.map_cons, alookup_cons, if_neg hk]
      exact ih

/-- A key-aware value map preserves the key list. -/
theorem keysOf_map_pair {α β : Type} (f : String → α → β)
    (m : List (String × α)) :
    keysOf (m.map (fun kl => (kl.1, f kl.1 kl.2))) = keysOf m := by
  simp [keysOf, List.map_map]

/-- Appending under a key that closes the dict: the new binding goes last. -/
theorem dictListAppend_of_not_mem {α : Type} (k : String) (v : α)
    (l : List α) :
    ∀ m : List (String × List α), ¬ k ∈ keysOf m →
      dictListAppend (m ++ [(k, l)]) k v = m ++ [(k, l ++ [v])] := by
  intro m
  induction m with
  | nil => simp [dictListAppend]
  | cons kl rest ih =>
    intro h
    obtain ⟨k2, l2⟩ := kl
    have hk2 : ¬ k2 = k := fun he => h (by simp [keysOf, he])
    simp only [List.cons_append, dictListAppend, if_neg hk2,
      List.append_eq]
    rw [ih (fun hm => h (by simp [keysOf] at hm ⊢; exact Or.inr hm))]

/-- Appending under a present key (keys pairwise distinct): the unique
binding grows in place. -/
theorem dictListAppend_of_mem {α : Type} (k : String) (v : α) :
    ∀ m : List (String × List α), (keysOf m).Nodup → k ∈ keysOf m →
      dictListAppend m k v =
        m.map (fun kl => (kl.1, if kl.1 = k then kl.2 ++ [v] else kl.2)) := by
  intro m
  induction m with
  | nil => intro _ h; cases h
  | cons kl rest ih =>
    intro hnd hmem
    obtain ⟨k2, l2⟩ := kl
    simp only [keysOf, List.map_cons, List.nodup_cons] at hnd
    by_cases hk2 : k2 = k
    · subst hk2
      simp only [dictListAppend, if_pos rfl, List.map_cons, if_true,
        reduceIte]
      have : rest.map
          (fun kl => (kl.1, if kl.1 = k2 then kl.2 ++ [v] else kl.2)) =
          rest := by
        have : ∀ kl ∈ rest,
            ((kl.1, if kl.1 = k2 then kl.2 ++ [v] else kl.2) :
              String × List α) = kl := by
          intro kl hm
          have hne : kl.1 ≠ k2 := fun he =>
            hnd.1 (by simpa [keysOf, he] using
              List.mem_map_of_mem Prod.fst hm)
          simp [hne]
        rw [List.map_congr_left this]
        simp
      rw [this]
    · simp only [dictListAppend, if_neg hk2, List.map_cons, hk2, if_false,
        reduceIte]
      have hmem2 : k ∈ keysOf rest := by
        simp only [keysOf, List.map_cons, List.mem_cons] at hmem
        rcases hmem with rfl | hmem
        · exact absurd rfl hk2
        · simpa [keysOf] using hmem
      rw [ih hnd.2 hmem2]

/-- A failed tagged scan stays failed. -/
theorem scanFoldT_none (tl : List (Nat × Record)) :
    tl.foldl (fun ost iv => ost.bind (fun st => scanStepT st iv)) none =
      none := by
  induction tl with
  | nil => rfl
  | cons iv tl ih => exact ih

/-- Appending one member to the (present) group of a key adds exactly that
member's record to the non-head members, as a multiset. -/
theorem flatMap_tails_replace (key : String) (x : Nat × Record) :
    ∀ m : List (String × List (Nat × Record)), (keysOf m).Nodup →
      key ∈ keysOf m → (∀ kg ∈ m, kg.2 ≠ []) →
      (↑((m.map (fun kl =>
          (kl.1, if kl.1 = key then kl.2 ++ [x] else kl.2))).flatMap
          (fun kg => kg.2.tail.map Prod.snd)) : Multiset Record) =
        x.2 ::ₘ ↑(m.flatMap (fun kg => kg.2.tail.map Prod.snd)) := by
  intro m
  induction m with
  | nil => intro _ h; cases h
  | cons kg rest ih =>
    intro hnd hmem hne
    obtain ⟨k2, g⟩ := kg
    simp only [keysOf, List.map_cons, List.nodup_cons] at hnd
    by_cases hk2 : k2 = key
    · subst hk2
      have hrest : rest.map (fun kl =>
          (kl.1, if kl.1 = k2 then kl.2 ++ [x] else kl.2)) = rest := by
        have : ∀ kl ∈ rest, ((kl.1, if kl.1 = k2 then kl.2 ++ [x]
            else kl.2) : String × List (Nat × Record)) = kl := by
          intro kl hm
          have hne2 : kl.1 ≠ k2 := fun he =>
            hnd.1 (by simpa [he] using List.mem_map_of_mem Prod.fst hm)
          simp [hne2]
        rw [List.map_congr_left this]
        simp
      simp only [List.map_cons, if_pos rfl, List.flatMap_cons, hrest,
        if_true, reduceIte]
      have hgne : g ≠ [] := hne (k2, g) (by simp)
      have htail : (g ++ [x]).tail = g.tail ++ [x] := by
        cases g with
        | nil => exact absurd rfl hgne
        | cons a g' => simp
      rw [htail, List.map_append, List.append_assoc]
      exact Multiset.coe_eq_coe.mpr List.perm_middle
    · have hmem2 : key ∈ keysOf rest := by
        simp only [keysOf, List.map_cons, List.mem_cons] at hmem
        rcases hmem with rfl | hmem
        · exact absurd rfl hk2
        · simpa [keysOf] using hmem
      simp only [List.map_cons, hk2, if_false, List.flatMap_cons, reduceIte]
      show (↑(g.tail.map Prod.snd) : Multiset Record) +
        ↑((rest.map (fun kl =>
          (kl.1, if kl.1 = key then kl.2 ++ [x] else kl.2))).flatMap
          (fun kg => kg.2.tail.map Prod.snd)) =
        x.2 ::ₘ ((↑(g.tail.map Prod.snd) : Multiset Record) +
          ↑(rest.flatMap fun kg => kg.2.tail.map Prod.snd))
      rw [ih hnd.2 hmem2 (fun kg hm => hne kg (by simp [hm])),
        Multiset.add_cons]

/-- One tagged scan step preserves the scan invariant (or fails on a
record without a name key). -/
theorem scanStepT_inv (st : ScanStateT) (n : Nat) (ms : Multiset Record)
    (r : Record) (hinv : ScanInv st n ms) :
    scanStepT st (n, r) = none ∨
      ∃ st', scanStepT st (n, r) = some st' ∧
        ScanInv st' (n + 1) (r ::ₘ ms) := by
  obtain ⟨i1, i2, i3, i4, i5, i6, i7, i8, i9, i10, i11⟩ := hinv
  rw [scanStepT]
  cases hk : nameKey r with
  | none => left; rfl
  | some key =>
    right
    simp only
    cases hs : alookup key st.seen with
    | none =>
      have hkey : ¬ key ∈ keysOf st.seen :=
        (alookup_eq_none_iff key st.seen).mp hs
      refine ⟨_, rfl, ?_, ?_, ?_, ?_, ?_, ?_, ?_, ?_, ?_, ?_, ?_⟩
      · show st.unique ++ [(n, r)] =
          (st.seen ++ [(key, (n, r))]).map Prod.snd
        rw [List.map_append, i1]
        rfl
      · show (keysOf (st.seen ++ [(key, (n, r))])).Nodup
        rw [show keysOf (st.seen ++ [(key, (n, r))]) =
          keysOf st.seen ++ [key] from by simp [keysOf]]
        simp only [List.nodup_append, List.nodup_cons, List.not_mem_nil,
          not_false_eq_true, List.nodup_nil, and_true, true_and]
        exact ⟨i2, fun a ha hb => hkey (List.mem_singleton.mp hb ▸ ha)⟩
      · intro kv hm
        rcases List.mem_append.mp hm with hm | hm
        · exact i3 kv hm
        · rw [List.mem_singleton.mp hm]
          exact hk
      · intro kg hm
        obtain ⟨s, hsl, hh⟩ := i4 kg hm
        exact ⟨s, alookup_append_some _ _ _ _ hsl, hh⟩
      · exact i5
      · exact i6
      · intro kg hm m hmt
        rw [show (st.seen ++ [(key, (n, r))]).map (fun kv => kv.2.1) =
          st.seen.map (fun kv => kv.2.1) ++ [n] from by simp]
        intro hmem
        rcases List.mem_append.mp hmem with hmem | hmem
        · exact i7 kg hm m hmt hmem
        · have hlt := i10 kg hm m (List.mem_of_mem_tail hmt)
          rw [List.mem_singleton.mp hmem] at hlt
          exact absurd hlt (lt_irrefl n)
      · rw [show (st.seen ++ [(key, (n, r))]).map (fun kv => kv.2.1) =
          st.seen.map (fun kv => kv.2.1) ++ [n] from by simp]
        simp only [List.nodup_append, List.nodup_cons, List.not_mem_nil,
          not_false_eq_true, List.nodup_nil, and_true, true_and]
        exact ⟨i8, fun a ha hb =>
          absurd (List.mem_singleton.mp hb ▸ i9 a ha) (lt_irrefl n)⟩
      · intro i hi
        rw [show (st.seen ++ [(key, (n, r))]).map (fun kv => kv.2.1) =
          st.seen.map (fun kv => kv.2.1) ++ [n] from by simp] at hi
        rcases List.mem_append.mp hi with hi | hi
        · exact Nat.lt_succ_of_lt (i9 i hi)
        · rw [List.mem_singleton.mp hi]
          exact Nat.lt_succ_self n
      · intro kg hm m hmm
        exact Nat.lt_succ_of_lt (i10 kg hm m hmm)
      · show (↑((st.seen ++ [(key, (n, r))]).map (fun kv => kv.2.2)) :
          Multiset Record) + _ = _
        rw [show (st.seen ++ [(key, (n, r))]).map (fun kv => kv.2.2) =
          st.seen.map (fun kv => kv.2.2) ++ [r] from by simp,
          ← i11]
        show (↑(st.seen.map fun kv => kv.2.2) : Multiset Record) +
          (r ::ₘ 0) + _ = _
        rw [add_right_comm, Multiset.add_cons, add_zero]
    | some seedT =>
      have hseedmem : (key, seedT) ∈ st.seen := mem_of_alookup _ _ _ hs
      have hseedid : seedT.1 < n := i9 _ (by
        simpa using List.mem_map_of_mem (fun kv => kv.2.1) hseedmem)
      have hseedkey : nameKey seedT.2 = some key := i3 (key, seedT) hseedmem
      cases hd : alookup key st.duplicates with
      | some g0 =>
        have hkeymem : key ∈ keysOf st.duplicates := by
          by_contra hx
          rw [(alookup_eq_none_iff key st.duplicates).mpr hx] at hd
          cases hd
        have hne : ∀ kg ∈ st.duplicates, kg.2 ≠ [] := by
          intro kg hm hnil
          obtain ⟨s, _, hh⟩ := i4 kg hm
          rw [hnil] at hh
          cases hh
        refine ⟨_, rfl, ?_⟩
        rw [dictListAppend_of_mem key (n, r) st.duplicates i6 hkeymem]
        refine ⟨i1, i2, i3, ?_, ?_, ?_, ?_, i8,
          fun i hi => Nat.lt_succ_of_lt (i9 i hi), ?_, ?_⟩
        · intro kg' hm'
          obtain ⟨kg, hm, rfl⟩ := List.mem_map.mp hm'
          obtain ⟨s, hsl, hh⟩ := i4 kg hm
          refine ⟨s, hsl, ?_⟩
          by_cases hkk : kg.1 = key
          · simp only [hkk, if_true, reduceIte]
            have : kg.2 ≠ [] := hne kg hm
            cases hg : kg.2 with
            | nil => exact absurd hg this
            | cons a g' =>
              rw [hg] at hh
              simpa using hh
          · simp only [hkk, if_false, reduceIte]
            exact hh
        · intro kg' hm' m hmm
          obtain ⟨kg, hm, rfl⟩ := List.mem_map.mp hm'
          by_cases hkk : kg.1 = key
          · simp only [hkk, if_true, reduceIte] at hmm
            rcases List.mem_append.mp hmm with hmm | hmm
            · simpa [hkk] using i5 kg hm m hmm
            · rw [List.mem_singleton.mp hmm]
              simpa [hkk] using hk
          · simp only [hkk, if_false, reduceIte] at hmm
            exact i5 kg hm m hmm
        · have := keysOf_map_pair
            (fun k2 l2 => if k2 = key then l2 ++ [(n, r)] else l2)
            st.duplicates
          rw [this]
          exact i6
        · intro kg' hm' m hmt
          obtain ⟨kg, hm, rfl⟩ := List.mem_map.mp hm'
          by_cases hkk : kg.1 = key
          · simp only [hkk, if_true, reduceIte] at hmt
            have hgne : kg.2 ≠ [] := hne kg hm
            have htail : (kg.2 ++ [(n, r)]).tail = kg.2.tail ++ [(n, r)] := by
              cases hg : kg.2 with
              | nil => exact absurd hg hgne
              | cons a g' => simp
            rw [htail] at hmt
            rcases List.mem_append.mp hmt with hmt | hmt
            · exact i7 kg hm m hmt
            · rw [List.mem_singleton.mp hmt]
              intro hmem
              exact absurd (i9 n hmem) (lt_irrefl n)
          · simp only [hkk, if_false, reduceIte] at hmt
            exact i7 kg hm m hmt
        · intro kg' hm' m hmm
          obtain ⟨kg, hm, rfl⟩ := List.mem_map.mp hm'
          by_cases hkk : kg.1 = key
          · simp only [hkk, if_true, reduceIte] at hmm
            rcases List.mem_append.mp hmm with hmm | hmm
            · exact Nat.lt_succ_of_lt (i10 kg hm m hmm)
            · rw [List.mem_singleton.mp hmm]
              exact Nat.lt_succ_self n
          · simp only [hkk, if_false, reduceIte] at hmm
            exact Nat.lt_succ_of_lt (i10 kg hm m hmm)
        · show (↑(st.seen.map fun kv => kv.2.2) : Multiset Record) + _ = _
          rw [flatMap_tails_replace key (n, r) st.duplicates i6 hkeymem hne,
            Multiset.add_cons, i11]
      | none =>
        have hkeynot : ¬ key ∈ keysOf st.duplicates :=
          (alookup_eq_none_iff key st.duplicates).mp hd
        refine ⟨_, rfl, ?_⟩
        rw [dictListAppend_of_not_mem key (n, r) [seedT] st.duplicates
          hkeynot]
        simp only [List.singleton_append]
        refine ⟨i1, i2, i3, ?_, ?_, ?_, ?_, i8,
          fun i hi => Nat.lt_succ_of_lt (i9 i hi), ?_, ?_⟩
        · intro kg hm
          rcases List.mem_append.mp hm with hm | hm
          · obtain ⟨s, hsl, hh⟩ := i4 kg hm
            exact ⟨s, hsl, hh⟩
          · rw [List.mem_singleton.mp hm]
            exact ⟨seedT, hs, rfl⟩
        · intro kg hm m hmm
          rcases List.mem_append.mp hm with hm | hm
          · exact i5 kg hm m hmm
          · rw [List.mem_singleton.mp hm] at hmm ⊢
            rcases List.mem_cons.mp hmm with rfl | hmm
            · exact hseedkey
            · rw [List.mem_singleton.mp hmm]
              exact hk
        · rw [show keysOf (st.duplicates ++ [(key, [seedT, (n, r)])]) =
            keysOf st.duplicates ++ [key] from by simp [keysOf]]
          simp only [List.nodup_append, List.nodup_cons, List.not_mem_nil,
            not_false_eq_true, List.nodup_nil, and_true, true_and]
          exact ⟨i6, fun a ha hb =>
            hkeynot (List.mem_singleton.mp hb ▸ ha)⟩
        · intro kg hm m hmt
          rcases List.mem_append.mp hm with hm | hm
          · exact i7 kg hm m hmt
          · rw [List.mem_singleton.mp hm] at hmt
            simp only [List.tail_cons, List.mem_singleton] at hmt
            rw [hmt]
            intro hmem
            exact absurd (i9 n hmem) (lt_irrefl n)
        · intro kg hm m hmm
          rcases List.mem_append.mp hm with hm | hm
          · exact Nat.lt_succ_of_lt (i10 kg hm m hmm)
          · rw [List.mem_singleton.mp hm] at hmm
            rcases List.mem_cons.mp hmm with rfl | hmm
            · exact Nat.lt_succ_of_lt hseedid
            · rw [List.mem_singleton.mp hmm]
              exact Nat.lt_succ_self n
        · show (↑(st.seen.map fun kv => kv.2.2) : Multiset Record) + _ = _
          rw [show (st.duplicates ++ [(key, [seedT, (n, r)])]).flatMap
              (fun kg => kg.2.tail.map Prod.snd) =
            st.duplicates.flatMap (fun kg => kg.2.tail.map Prod.snd) ++ [r]
            from by simp]
          show (↑(st.seen.map fun kv => kv.2.2) : Multiset Record) +
            ((↑(st.duplicates.flatMap fun kg => kg.2.tail.map Prod.snd) :
              Multiset Record) + (r ::ₘ 0)) = _
          rw [Multiset.add_cons, add_zero, Multiset.add_cons, i11]

/-- The tagged scan, run from any invariant state, fails or reaches an
invariant state having processed all its input. -/
theorem scanFoldT_inv :
    ∀ (vs : List Record) (n : Nat) (st : ScanStateT) (ms : Multiset Record),
      ScanInv st n ms →
      (List.enumFrom n vs).foldl
        (fun ost iv => ost.bind (fun st => scanStepT st iv)) (some st) =
          none ∨
      ∃ st', (List.enumFrom n vs).foldl
        (fun ost iv => ost.bind (fun st => scanStepT st iv)) (some st) =
          some st' ∧ ScanInv st' (n + vs.length) (↑vs + ms) := by
  intro vs
  induction vs with
  | nil =>
    intro n st ms hinv
    right
    exact ⟨st, rfl, by simpa using hinv⟩
  | cons v vs ih =>
    intro n st ms hinv
    rw [show List.enumFrom n (v :: vs) =
      (n, v) :: List.enumFrom (n + 1) vs from rfl, List.foldl_cons]
    rcases scanStepT_inv st n ms v hinv with hnone | ⟨st', hstep, hinv'⟩
    · left
      rw [show (some st).bind (fun st => scanStepT st (n, v)) = none
        from hnone]
      exact scanFoldT_none _
    · rw [show (some st).bind (fun st => scanStepT st (n, v)) = some st'
        from hstep]
      rcases ih (n + 1) st' (v ::ₘ ms) hinv' with h | ⟨st2, hfold, hinv2⟩
      · left; exact h
      · right
        refine ⟨st2, hfold, ?_⟩
        have harith : n + 1 + vs.length = n + (vs.length + 1) := by omega
        have hms : (↑vs : Multiset Record) + (v ::ₘ ms) = ↑(v :: vs) + ms := by
          show _ = (v ::ₘ (↑vs : Multiset Record)) + ms
          rw [Multiset.add_cons, Multiset.cons_add]
        rw [harith, hms] at hinv2
        simpa using hinv2

/-- Removing the first `==`-match of a duplicate-group seed from the unique
list removes exactly the (single) entry carrying the group's key. -/
theorem removeFirst_seed (k : String) (s : Nat × Record) :
    ∀ sn : List (String × (Nat × Record)),
      (keysOf sn).Nodup →
      (∀ kv ∈ sn, nameKey kv.2.2 = some kv.1) →
      alookup k sn = some s →
      removeFirst (fun x => recEqB x s.2) (sn.map (fun kv => kv.2.2)) =
        (sn.filter (fun kv => kv.1 ≠ k)).map (fun kv => kv.2.2) := by
  intro sn
  induction sn with
  | nil => intro _ _ h; cases h
  | cons kv rest ih =>
    intro hnd hkeys hl
    obtain ⟨k2, v⟩ := kv
    simp only [keysOf, List.map_cons, List.nodup_cons] at hnd
    have hklookup : nameKey s.2 = some k := by
      have := hkeys (k, s) (mem_of_alookup _ _ _ hl)
      simpa using this
    by_cases hk2 : k2 = k
    · subst hk2
      rw [alookup_cons, if_pos rfl] at hl
      injection hl with hl
      subst hl
      rw [List.map_cons, removeFirst, if_pos (recEqB_refl _), List.filter_cons,
        if_neg (by simp)]
      have : rest.filter (fun kv => kv.1 ≠ k2) = rest := by
        rw [List.filter_eq_self]
        intro kv hm
        have hne : kv.1 ≠ k2 := fun he =>
          hnd.1 (he ▸ List.mem_map_of_mem Prod.fst hm)
        simp [hne]
      rw [this]
    · rw [alookup_cons, if_neg hk2] at hl
      have hnoteq : recEqB v.2 s.2 = false := by
        by_contra hx
        have hbool : recEqB v.2 s.2 = true := by
          cases hb : recEqB v.2 s.2
          · exact absurd hb hx
          · rfl
        have := nameKey_eq_of_recEqB _ _ hbool
        rw [hklookup] at this
        have hv := hkeys (k2, v) (by simp)
        simp only at hv
        rw [hv] at this
        exact hk2 (Option.some.inj this)
      rw [List.map_cons, removeFirst, if_neg (by simp [hnoteq]),
        List.filter_cons, if_pos (by simp [hk2])]
      rw [List.map_cons, ih hnd.2 (fun kv hm => hkeys kv (by simp [hm])) hl]

/-- A record keyed to `k` matches nothing in a unique list purged of `k`. -/
theorem no_match_after_purge (k : String) (d : Record)
    (hd : nameKey d = some k) :
    ∀ sn : List (String × (Nat × Record)),
      (∀ kv ∈ sn, nameKey kv.2.2 = some kv.1) →
      ((sn.filter (fun kv => kv.1 ≠ k)).map (fun kv => kv.2.2)).any
        (fun x => recEqB x d) = false := by
  intro sn hkeys
  by_contra hx
  have hany : ((sn.filter (fun kv => kv.1 ≠ k)).map
      (fun kv => kv.2.2)).any (fun x => recEqB x d) = true := by
    cases hb : List.any _ _
    · exact absurd hb hx
    · rfl
  obtain ⟨x, hxm, hxe⟩ := List.any_eq_true.mp hany
  obtain ⟨kv, hkvm, rfl⟩ := List.mem_map.mp hxm
  have hkv2 := List.mem_filter.mp hkvm
  have h1 := nameKey_eq_of_recEqB _ _ hxe
  rw [hd, hkeys kv hkv2.1] at h1
  have : kv.1 = k := Option.some.inj h1
  simp [this] at hkv2

/-- A removal pass over members that match nothing leaves the list alone. -/
theorem fold_no_match (u : List Record) :
    ∀ gs : List Record, (∀ d ∈ gs, u.any (fun x => recEqB x d) = false) →
      gs.foldl
        (fun uniq d => if uniq.any (fun x => recEqB x d) then
          removeFirst (fun x => recEqB x d) uniq else uniq) u = u := by
  intro gs
  induction gs with
  | nil => intro _; rfl
  | cons d gs ih =>
    intro h
    rw [List.foldl_cons, if_neg (by simp [h d (by simp)])]
    exact ih (fun d2 hm => h d2 (by simp [hm]))

/-- Removing one whole duplicate group from the unique list removes exactly
the entry carrying the group's key. -/
theorem removal_one_group (k : String) (s : Nat × Record) :
    ∀ (g : List Record) (sn : List (String × (Nat × Record))),
      (keysOf sn).Nodup →
      (∀ kv ∈ sn, nameKey kv.2.2 = some kv.1) →
      alookup k sn = some s →
      g.head? = some s.2 →
      (∀ m ∈ g, nameKey m = some k) →
      g.foldl
        (fun uniq d => if uniq.any (fun x => recEqB x d) then
          removeFirst (fun x => recEqB x d) uniq else uniq)
        (sn.map (fun kv => kv.2.2)) =
      (sn.filter (fun kv => kv.1 ≠ k)).map (fun kv => kv.2.2) := by
  intro g sn hnd hkeys hl hh hmem
  cases g with
  | nil => cases hh
  | cons d g =>
    have hd : d = s.2 := by
      simpa using hh
    subst hd
    rw [List.foldl_cons, if_pos (by
      apply List.any_eq_true.mpr
      refine ⟨s.2, ?_, recEqB_refl s.2⟩
      exact List.mem_map.mpr ⟨(k, s), mem_of_alookup _ _ _ hl, rfl⟩)]
    rw [removeFirst_seed k s sn hnd hkeys hl]
    exact fold_no_match _ g (fun d2 hm =>
      no_match_after_purge k d2 (hmem d2 (by simp [hm])) sn hkeys)

/-- The full removal loop of `organize_duplicates` removes from the unique
list exactly the entries whose keys head a duplicate group. -/
theorem removal_all_groups :
    ∀ (ds : List (String × List Record))
      (sn : List (String × (Nat × Record))),
      (keysOf sn).Nodup →
      (∀ kv ∈ sn, nameKey kv.2.2 = some kv.1) →
      (keysOf ds).Nodup →
      (∀ kg ∈ ds, ∃ s, alookup kg.1 sn = some s ∧
        kg.2.head? = some s.2 ∧ ∀ m ∈ kg.2, nameKey m = some kg.1) →
      removeDupsFromUnique ds (sn.map (fun kv => kv.2.2)) =
        (sn.filter (fun kv => ¬ (keysOf ds).contains kv.1)).map
          (fun kv => kv.2.2) := by
  intro ds
  induction ds with
  | nil =>
    intro sn _ _ _ _
    rw [removeDupsFromUnique, List.foldl_nil]
    have : sn.filter (fun kv => ¬ (keysOf ([] : List (String × List Record))).contains kv.1) = sn := by
      rw [List.filter_eq_self]
      intro kv _
      simp [keysOf]
    rw [this]
  | cons kg ds ih =>
    intro sn hnd hkeys hdnd hgroups
    obtain ⟨k, g⟩ := kg
    obtain ⟨s, hl, hh, hmem⟩ := hgroups (k, g) (by simp)
    simp only at hl hh hmem
    rw [removeDupsFromUnique, List.foldl_cons]
    rw [show g.foldl
        (fun uniq d => if uniq.any (fun x => recEqB x d) then
          removeFirst (fun x => recEqB x d) uniq else uniq)
        (sn.map (fun kv => kv.2.2)) =
      (sn.filter (fun kv => kv.1 ≠ k)).map (fun kv => kv.2.2) from
      removal_one_group k s g sn hnd hkeys hl hh hmem]
    simp only [keysOf, List.map_cons, List.nodup_cons] at hdnd
    have hres := ih (sn.filter (fun kv => kv.1 ≠ k))
      (by
        simp only [keysOf] at hnd ⊢
        exact List.Nodup.sublist ((List.filter_sublist sn).map Prod.fst) hnd)
      (fun kv hm => hkeys kv (List.mem_filter.mp hm).1)
      hdnd.2
      (by
        intro kg2 hm2
        obtain ⟨s2, hl2, hh2, hmem2⟩ := hgroups kg2 (by simp [hm2])
        have hne2 : kg2.1 ≠ k := by
          intro he
          exact hdnd.1 (by
            simpa [keysOf, he] using List.mem_map_of_mem Prod.fst hm2)
        exact ⟨s2, by rw [alookup_filter_ne kg2.1 k hne2 sn]; exact hl2,
          hh2, hmem2⟩)
    simp only [removeDupsFromUnique] at hres
    rw [hres, List.filter_filter]
    apply congrArg
    apply List.filter_congr
    intro kv _
    by_cases h1 : kv.1 = k <;>
      by_cases h2 : kv.1 ∈ keysOf ds <;>
        simp [keysOf, h1, h2]

/-- On an invariant scan state, the program's `==`-based removal loop leaves
exactly the seen records whose name key heads no duplicate group. -/
theorem removeDups_eq_filter (st : ScanStateT) (n : Nat) (ms : Multiset Record)
    (hinv : ScanInv st n ms) :
    removeDupsFromUnique (projT st).duplicates (projT st).unique =
      (st.seen.filter (fun kv => ¬ (keysOf st.duplicates).contains kv.1)).map
        (fun kv => kv.2.2) := by
  obtain ⟨i1, i2, i3, i4, i5, i6, i7, i8, i9, i10, i11⟩ := hinv
  have hu : (projT st).unique = st.seen.map (fun kv => kv.2.2) := by
    show st.unique.map Prod.snd = _
    rw [i1, List.map_map]
    rfl
  have hkeys : keysOf ((projT st).duplicates) = keysOf st.duplicates := by
    show keysOf (st.duplicates.map _) = _
    simp [keysOf, List.map_map]
  have hmain := removal_all_groups (projT st).duplicates st.seen i2 i3
    (by rw [hkeys]; exact i6)
    (by
      intro kg hm
      obtain ⟨kg0, hkg0, rfl⟩ := List.mem_map.mp hm
      obtain ⟨s, hls, hhs⟩ := i4 kg0 hkg0
      refine ⟨s, hls, ?_, ?_⟩
      · show (kg0.2.map Prod.snd).head? = some s.2
        rw [List.head?_map, hhs]
        rfl
      · intro m hm2
        obtain ⟨m0, hm0, rfl⟩ := List.mem_map.mp hm2
        exact i5 kg0 hkg0 m0 hm0)
  rw [hu, hmain, hkeys]

/-- On an invariant scan state, the spec's id-based removal leaves the same
records: a seen id lies in a duplicate group iff the record's key does. -/
theorem idRemoval_eq_filter (st : ScanStateT) (n : Nat) (ms : Multiset Record)
    (hinv : ScanInv st n ms) :
    ((st.unique.filter (fun iv =>
        ¬ (st.duplicates.flatMap (fun kl => kl.2.map Prod.fst)).contains
          iv.1)).map Prod.snd) =
      (st.seen.filter (fun kv => ¬ (keysOf st.duplicates).contains kv.1)).map
        (fun kv => kv.2.2) := by
  obtain ⟨i1, i2, i3, i4, i5, i6, i7, i8, i9, i10, i11⟩ := hinv
  have hiff : ∀ kv ∈ st.seen,
      (kv.2.1 ∈ st.duplicates.flatMap (fun kl => kl.2.map Prod.fst) ↔
        kv.1 ∈ keysOf st.duplicates) := by
    intro kv hkv
    constructor
    · intro hid
      obtain ⟨kg, hkg, hidm⟩ := List.mem_flatMap.mp hid
      obtain ⟨m, hm, hm1⟩ := List.mem_map.mp hidm
      obtain ⟨s, hls, hhs⟩ := i4 kg hkg
      cases hg : kg.2 with
      | nil => rw [hg] at hhs; cases hhs
      | cons m0 tail =>
        rw [hg] at hhs
        have hm0 : m0 = s := by simpa using hhs
        rw [hg] at hm
        rcases List.mem_cons.mp hm with rfl | htail
        · have hsm : (kg.1, s) ∈ st.seen := mem_of_alookup _ _ _ hls
          have heq : kv = (kg.1, s) :=
            List.inj_on_of_nodup_map i8 hkv hsm
              (by rw [← hm1, hm0])
          rw [heq]
          exact List.mem_map_of_mem Prod.fst hkg
        · have htail2 : m ∈ kg.2.tail := by rw [hg]; simpa using htail
          have hnm := i7 kg hkg m htail2
          exact absurd (List.mem_map.mpr ⟨kv, hkv, rfl⟩) (hm1 ▸ hnm)
    · intro hkey
      obtain ⟨kg, hkg, hk1⟩ := List.mem_map.mp hkey
      obtain ⟨s, hls, hhs⟩ := i4 kg hkg
      have hlkv : alookup kv.1 st.seen = some kv.2 :=
        alookup_of_mem_nodup kv.1 kv.2 st.seen i2 (by simpa using hkv)
      rw [hk1, hlkv] at hls
      have hs : s = kv.2 := (Option.some.inj hls).symm
      apply List.mem_flatMap.mpr
      refine ⟨kg, hkg, ?_⟩
      cases hg : kg.2 with
      | nil => rw [hg] at hhs; cases hhs
      | cons m0 tail =>
        rw [hg] at hhs
        have hm0 : m0 = s := by simpa using hhs
        apply List.mem_map.mpr
        exact ⟨m0, by simp, by rw [hm0, hs]⟩
  rw [i1, List.filter_map, List.map_map]
  rw [show (Prod.snd ∘ Prod.snd : String × Nat × Record → Record) =
    (fun kv => kv.2.2) from rfl]
  apply congrArg
  apply List.filter_congr
  intro kv hkv
  have hx := hiff kv hkv
  by_cases h1 : kv.1 ∈ keysOf st.duplicates
  · have h2 : kv.2.1 ∈ st.duplicates.flatMap (fun kl => kl.2.map Prod.fst) :=
      hx.mpr h1
    simp [Function.comp, h1, h2]
  · have h2 : ¬ kv.2.1 ∈ st.duplicates.flatMap (fun kl => kl.2.map Prod.fst) :=
      fun h => h1 (hx.mp h)
    simp [Function.comp, h1, h2]

/-- List append becomes multiset sum under the coercion. -/
theorem coe_append_split {α : Type} (l1 l2 : List α) :
    (↑(l1 ++ l2) : Multiset α) = ↑l1 + ↑l2 := rfl

/-- List cons becomes multiset cons under the coercion. -/
theorem coe_cons_split {α : Type} (a : α) (l : List α) :
    (↑(a :: l) : Multiset α) = a ::ₘ ↑l := rfl

/-- Filtering by a disjunction of disjoint tests splits, as a multiset, into
the two separate filters (image under `f`). -/
theorem filter_or_split_map {α β : Type} (f : α → β) (p q : α → Bool) :
    ∀ l : List α, (∀ x ∈ l, ¬(p x = true ∧ q x = true)) →
      (↑((l.filter (fun x => p x || q x)).map f) : Multiset β) =
        ↑((l.filter p).map f) + ↑((l.filter q).map f) := by
  intro l
  induction l with
  | nil => intro _; rfl
  | cons x xs ih =>
    intro h
    have hx := h x (by simp)
    have hrest : ∀ y ∈ xs, ¬(p y = true ∧ q y = true) :=
      fun y hy => h y (by simp [hy])
    rw [List.filter_cons, List.filter_cons, List.filter_cons]
    cases hp : p x <;> cases hq : q x
    · rw [if_neg (by simp [hp, hq]), if_neg (by simp [hp]),
        if_neg (by simp [hq])]
      exact ih hrest
    · rw [if_pos (by simp [hq]), if_neg (by simp [hp]),
        if_pos (by simp [hq])]
      rw [List.map_cons]
      rw [show (↑(f x :: (xs.filter (fun x => p x || q x)).map f) :
          Multiset β) = f x ::ₘ ↑((xs.filter (fun x => p x || q x)).map f)
        from rfl]
      rw [ih hrest]
      rw [List.map_cons]
      rw [show (↑(f x :: (xs.filter q).map f) : Multiset β) =
        f x ::ₘ ↑((xs.filter q).map f) from rfl]
      rw [Multiset.add_cons]
    · rw [if_pos (by simp [hp]), if_pos (by simp [hp]),
        if_neg (by simp [hq])]
      rw [List.map_cons]
      rw [show (↑(f x :: (xs.filter (fun x => p x || q x)).map f) :
          Multiset β) = f x ::ₘ ↑((xs.filter (fun x => p x || q x)).map f)
        from rfl]
      rw [ih hrest]
      rw [List.map_cons]
      rw [show (↑(f x :: (xs.filter p).map f) : Multiset β) =
        f x ::ₘ ↑((xs.filter p).map f) from rfl]
      rw [Multiset.cons_add]
    · exact absurd ⟨hp, hq⟩ hx

/-- A seen list splits, as a multiset of records, into the entries whose key
lies in `K` and the rest. -/
theorem seen_partition (K : List String) :
    ∀ sn : List (String × (Nat × Record)),
      (↑(sn.map (fun kv => kv.2.2)) : Multiset Record) =
        ↑((sn.filter (fun kv => K.contains kv.1)).map (fun kv => kv.2.2)) +
          ↑((sn.filter (fun kv => ¬ K.contains kv.1)).map
            (fun kv => kv.2.2)) := by
  intro sn
  induction sn with
  | nil => rfl
  | cons kv rest ih =>
    rw [List.map_cons, List.filter_cons, List.filter_cons]
    by_cases h : K.contains kv.1 = true
    · rw [if_pos h, if_neg (by simpa using h), List.map_cons]
      simp only [← Multiset.cons_coe]
      rw [ih, Multiset.cons_add]
    · rw [if_neg h, if_pos (by simpa using h), List.map_cons]
      simp only [← Multiset.cons_coe]
      rw [ih, Multiset.add_cons]

/-- The seen entries whose key heads a duplicate group, together with the
groups' non-head members, are exactly the groups' full member lists. -/
theorem heads_plus_tails :
    ∀ (ds : List (String × List (Nat × Record)))
      (sn : List (String × (Nat × Record))),
      (keysOf sn).Nodup →
      (keysOf ds).Nodup →
      (∀ kg ∈ ds, ∃ s, alookup kg.1 sn = some s ∧ kg.2.head? = some s) →
      (↑((sn.filter (fun kv => (keysOf ds).contains kv.1)).map
          (fun kv => kv.2.2)) : Multiset Record) +
        ↑(ds.flatMap (fun kg => kg.2.tail.map Prod.snd)) =
        ↑(ds.flatMap (fun kg => kg.2.map Prod.snd)) := by
  intro ds
  induction ds with
  | nil =>
    intro sn _ _ _
    simp [keysOf]
  | cons kg ds ih =>
    intro sn hnd hdnd hgroups
    obtain ⟨k, g⟩ := kg
    obtain ⟨s, hls, hhs⟩ := hgroups (k, g) (by simp)
    simp only at hls hhs
    cases hg2 : g with
    | nil => rw [hg2] at hhs; cases hhs
    | cons a t =>
      rw [hg2] at hhs
      have ha : a = s := by simpa using hhs
      rw [← ha] at hls
      subst hg2
      simp only [keysOf, List.map_cons, List.nodup_cons] at hdnd
      have hpred : sn.filter
          (fun kv => (keysOf ((k, a :: t) :: ds)).contains kv.1) =
          sn.filter (fun kv =>
            decide (kv.1 = k) || (keysOf ds).contains kv.1) := by
        apply List.filter_congr
        intro kv _
        by_cases hc : kv.1 = k <;> simp [keysOf, List.contains_cons, hc]
      rw [hpred]
      rw [filter_or_split_map (fun kv => kv.2.2)
        (fun kv => decide (kv.1 = k)) (fun kv => (keysOf ds).contains kv.1)
        sn
        (by
          intro kv _
          rintro ⟨h1, h2⟩
          simp only [decide_eq_true_eq] at h1
          apply hdnd.1
          rw [← h1]
          simpa [keysOf] using h2)]
      rw [show sn.filter (fun kv => decide (kv.1 = k)) = [(k, a)] from
        filter_key_eq k a sn hnd hls]
      have hih := ih sn hnd hdnd.2
        (by
          intro kg2 hm2
          obtain ⟨s2, hl2, hh2⟩ := hgroups kg2 (by simp [hm2])
          exact ⟨s2, hl2, hh2⟩)
      rw [List.flatMap_cons, List.flatMap_cons, List.tail_cons,
        List.map_cons]
      simp only [List.map_cons, List.map_nil, coe_append_split,
        coe_cons_split, Multiset.coe_nil]
      rw [← hih]
      simp only [← Multiset.singleton_add]
      abel

/-- The empty scan state satisfies the invariant with no records processed. -/
theorem scanInv_init : ScanInv ⟨[], [], []⟩ 0 0 :=
  ⟨rfl, by simp [keysOf], by simp, by simp, by simp, by simp [keysOf],
    by simp, by simp, by simp, by simp, rfl⟩

/-- C4: after the duplicate grouper runs, every input record belongs to
exactly one of the unique list or a duplicate group (their concatenation is a
permutation of the input), and although the removal loop uses Python `==`
value equality (`if duplicate_vcard in unique_vcards_: remove`), it
provably coincides with the spec's position/identity-based removal: the
program's output equals that of the id-tagged reference grouper, so
structurally equal records are never conflated. -/
theorem organize_matches_id_based (vcards : List Record) :
    organize_duplicates vcards = organizeByIdRef vcards ∧
    ∀ u d, organize_duplicates vcards = some (u, d) →
      (u ++ d.flatMap (fun kl => kl.2)).Perm vcards := by
  have hfold := scanFoldT_inv vcards 0 ⟨[], [], []⟩ 0 scanInv_init
  rcases hfold with hnone | ⟨stf, hsome, hinvf⟩
  · have hT : scanAllT vcards.enum = none := by
      rw [scanAllT, show vcards.enum = List.enumFrom 0 vcards from rfl]
      exact hnone
    have hU : scanAll vcards = none := by
      rw [scanAll_eq_proj, hT]
      rfl
    refine ⟨?_, ?_⟩
    · rw [organize_duplicates, organizeByIdRef, hU, hT]
      rfl
    · intro u d h
      rw [organize_duplicates, hU] at h
      cases h
  · have hT : scanAllT vcards.enum = some stf := by
      rw [scanAllT, show vcards.enum = List.enumFrom 0 vcards from rfl]
      exact hsome
    have hU : scanAll vcards = some (projT stf) := by
      rw [scanAll_eq_proj, hT]
      rfl
    have hremU := removeDups_eq_filter stf (0 + vcards.length)
      (↑vcards + 0) hinvf
    have hremT := idRemoval_eq_filter stf (0 + vcards.length)
      (↑vcards + 0) hinvf
    constructor
    · simp only [organize_duplicates, organizeByIdRef, hU, hT,
        Option.map_some', Option.some.injEq, Prod.mk.injEq]
      refine ⟨?_, rfl⟩
      rw [hremU, ← hremT]
    · intro u d h
      simp only [organize_duplicates, hU, Option.map_some',
        Option.some.injEq, Prod.mk.injEq] at h
      obtain ⟨hu, hd⟩ := h
      subst hu
      subst hd
      rw [hremU]
      have hmem : (projT stf).duplicates.flatMap (fun kl => kl.2) =
          stf.duplicates.flatMap (fun kg => kg.2.map Prod.snd) := by
        show (stf.duplicates.map
          (fun kl => (kl.1, kl.2.map Prod.snd))).flatMap (fun kl => kl.2) = _
        rw [List.flatMap_map]
      rw [hmem, ← Multiset.coe_eq_coe, coe_append_split]
      obtain ⟨i1, i2, i3, i4, i5, i6, i7, i8, i9, i10, i11⟩ := hinvf
      rw [add_zero] at i11
      have hheads := heads_plus_tails stf.duplicates stf.seen i2 i6 i4
      rw [← i11, ← hheads, seen_partition (keysOf stf.duplicates) stf.seen]
      abel

/-- Concrete run for C4: two structurally equal records and one distinct
record; the unique list and the duplicate group partition the input. -/
theorem organize_matches_id_based_witness :
    (([("FN", PropEntry.one ⟨"Jane Roe", []⟩)] :: List.nil) ++
      ([("Doe, John",
          [[("FN", PropEntry.one ⟨"John Doe", []⟩)],
           [("FN", PropEntry.one ⟨"John Doe", []⟩)]])] :
        List (String × List Record)).flatMap (fun kl => kl.2)).Perm
      [[("FN", PropEntry.one ⟨"John Doe", []⟩)],
       [("FN", PropEntry.one ⟨"John Doe", []⟩)],
       [("FN", PropEntry.one ⟨"Jane Roe", []⟩)]] :=
  (organize_matches_id_based
      [[("FN", PropEntry.one ⟨"John Doe", []⟩)],
       [("FN", PropEntry.one ⟨"John Doe", []⟩)],
       [("FN", PropEntry.one ⟨"Jane Roe", []⟩)]]).2
    ([("FN", PropEntry.one ⟨"Jane Roe", []⟩)] :: List.nil)
    [("Doe, John",
       [[("FN", PropEntry.one ⟨"John Doe", []⟩)],
        [("FN", PropEntry.one ⟨"John Doe", []⟩)]])]
    rfl

end VCardCleaner
